import Mathlib

/-!
Verification of the fanfare time-series store (src/main.rs) against its
natural-language specification.

The development shallowly embeds the program: byte strings are lists of
naturals (each < 256 where produced by the code), the LMDB store is a
key-sorted association list, machine integers are Nat/Int with explicit
reductions modulo 2^w, and fallible operations return Except/Option.
External collaborators (the chrono datetime format, the glob crate's
matcher, Rust's float parser/printer) are modelled at their interface
boundary as the specification describes them; floating-point parsing and
rendering is kept abstract as a codec parameter, since the program only
moves the parsed bytes around verbatim.
-/

/-- Decidable equality for Except results, used to evaluate the model on
concrete inputs. -/
instance {ε α : Type} [DecidableEq ε] [DecidableEq α] : DecidableEq (Except ε α) := fun a b =>
  match a, b with
  | .ok x, .ok y =>
    if h : x = y then .isTrue (by rw [h]) else .isFalse (by intro hc; cases hc; exact h rfl)
  | .error x, .error y =>
    if h : x = y then .isTrue (by rw [h]) else .isFalse (by intro hc; cases hc; exact h rfl)
  | .ok _, .error _ => .isFalse (by intro hc; cases hc)
  | .error _, .ok _ => .isFalse (by intro hc; cases hc)

/-- Byte strings, as produced and consumed by the storage engine. -/
abbrev Bytes := List Nat

/-- Byte-lexicographic strict order on keys, the order LMDB keeps keys in:
elementwise comparison, a strict prefix sorts before its extensions. -/
def bytesLt : Bytes → Bytes → Bool
  | [], [] => false
  | [], _ :: _ => true
  | _ :: _, [] => false
  | a :: as, b :: bs => a < b || (a == b && bytesLt as bs)

/-- Big-endian fixed-width encoding of an unsigned integer, mirroring
Rust's u64::to_be_bytes and friends (w bytes, most significant first). -/
def beBytes : Nat → Nat → Bytes
  | 0, _ => []
  | w + 1, n => n / 256 ^ w % 256 :: beBytes w (n % 256 ^ w)

/-- Big-endian value of a byte string, mirroring uN::from_be_bytes. -/
def beVal : Bytes → Nat
  | [] => 0
  | b :: bs => b * 256 ^ bs.length + beVal bs

/-- UTF-8 encoding of one Unicode scalar value, as Rust's str stores it. -/
def utf8EncodeChar (c : Char) : Bytes :=
  if c.toNat < 0x80 then [c.toNat]
  else if c.toNat < 0x800 then [0xC0 + c.toNat / 64, 0x80 + c.toNat % 64]
  else if c.toNat < 0x10000 then
    [0xE0 + c.toNat / 4096, 0x80 + c.toNat / 64 % 64, 0x80 + c.toNat % 64]
  else
    [0xF0 + c.toNat / 262144, 0x80 + c.toNat / 4096 % 64, 0x80 + c.toNat / 64 % 64,
      0x80 + c.toNat % 64]

/-- UTF-8 bytes of a string (Rust's str::as_bytes). -/
def utf8Bytes (s : String) : Bytes :=
  s.data.foldr (fun c acc => utf8EncodeChar c ++ acc) []

/-- Strict UTF-8 decoder, mirroring Rust's str::from_utf8 validity rules:
continuation bytes checked, overlong encodings, surrogates and values
above 0x10FFFF rejected. The first argument is fuel, one unit per
decoded character, so the recursion is structural and the definition
evaluates inside the kernel; the wrapper passes the byte length, which
always suffices because every character consumes at least one byte. -/
def utf8DecodeGo : Nat → Bytes → Option (List Char)
  | _, [] => some []
  | 0, _ :: _ => none
  | f + 1, b :: bs =>
    if b < 0x80 then
      (utf8DecodeGo f bs).map (fun cs => Char.ofNat b :: cs)
    else if b < 0xC2 then none
    else if b < 0xE0 then
      match bs with
      | b1 :: bs1 =>
        if 0x80 ≤ b1 ∧ b1 < 0xC0 then
          (utf8DecodeGo f bs1).map (fun cs => Char.ofNat ((b - 0xC0) * 64 + (b1 - 0x80)) :: cs)
        else none
      | [] => none
    else if b < 0xF0 then
      match bs with
      | b1 :: b2 :: bs2 =>
        if (0x80 ≤ b1 ∧ b1 < 0xC0) ∧ (0x80 ≤ b2 ∧ b2 < 0xC0)
            ∧ (b = 0xE0 → 0xA0 ≤ b1) ∧ (b = 0xED → b1 < 0xA0) then
          (utf8DecodeGo f bs2).map (fun cs =>
            Char.ofNat ((b - 0xE0) * 4096 + (b1 - 0x80) * 64 + (b2 - 0x80)) :: cs)
        else none
      | _ => none
    else if b < 0xF5 then
      match bs with
      | b1 :: b2 :: b3 :: bs3 =>
        if (0x80 ≤ b1 ∧ b1 < 0xC0) ∧ (0x80 ≤ b2 ∧ b2 < 0xC0) ∧ (0x80 ≤ b3 ∧ b3 < 0xC0)
            ∧ (b = 0xF0 → 0x90 ≤ b1) ∧ (b = 0xF4 → b1 < 0x90) then
          (utf8DecodeGo f bs3).map (fun cs =>
            Char.ofNat ((b - 0xF0) * 262144 + (b1 - 0x80) * 4096 + (b2 - 0x80) * 64
              + (b3 - 0x80)) :: cs)
        else none
      | _ => none
    else none

/-- UTF-8 decoding to a string; none on invalid UTF-8. -/
def utf8Decode (bs : Bytes) : Option String :=
  (utf8DecodeGo bs.length bs).map (fun cs => ⟨cs⟩)

namespace Key

/-- Result of Key::bytes_decode. The source subtracts 8 from the byte
length as usize and slices with the result, so a key shorter than 8 bytes
makes the process panic (subtraction overflow in debug builds, slice
index out of range in release builds) instead of returning None. -/
inductive DecodeResult where
  | panic
  | fail
  | ok (name : String) (nanos : Nat)
  deriving DecidableEq

/-- Key::bytes_encode from src/main.rs: UTF-8 bytes of the series name
followed by the 8-byte big-endian timestamp. -/
def bytesEncode (text : String) (nanos : Nat) : Bytes :=
  utf8Bytes text ++ beBytes 8 nanos

/-- Key::bytes_decode from src/main.rs: split the last 8 bytes as the
big-endian timestamp, decode the remaining prefix as UTF-8. The
try_into on the 8-byte suffix always succeeds, so the only graceful
failure is invalid UTF-8 in the prefix. -/
def bytesDecode (bytes : Bytes) : DecodeResult :=
  if bytes.length < 8 then .panic
  else
    let textLen := bytes.length - 8
    match utf8Decode (bytes.take textLen) with
    | none => .fail
    | some text => .ok text (beVal (bytes.drop textLen))

end Key

/-- Key of the sentinel record holding the schema: the encoding of ("", 0),
eight zero bytes, the smallest key any data point can have a suffix of. -/
def sentinelKey : Bytes := Key.bytesEncode "" 0

/-- The six value type codes of the schema (enum Code in src/main.rs). -/
inductive Code where
  | Float
  | Double
  | Unsigned
  | UnsignedLong
  | Signed
  | SignedLong
  deriving DecidableEq

namespace Code

/-- Code::from: map a code byte to its scalar kind
(f, F, u, U, i, I as ASCII bytes). Named fromByte because
from is a reserved word in Lean. -/
def fromByte (c : Nat) : Option Code :=
  if c = 102 then some .Float
  else if c = 70 then some .Double
  else if c = 117 then some .Unsigned
  else if c = 85 then some .UnsignedLong
  else if c = 105 then some .Signed
  else if c = 73 then some .SignedLong
  else none

/-- Fixed byte width of each scalar kind. -/
def width : Code → Nat
  | .Float => 4
  | .Double => 8
  | .Unsigned => 4
  | .UnsignedLong => 8
  | .Signed => 4
  | .SignedLong => 8

end Code

/-- Schema of a stored code string: every byte mapped through Code::from.
The read path calls Code::from(c).unwrap() on each byte, so an invalid
byte is a panic there; this helper returns none in that case. -/
def codesOf (cb : Bytes) : Option (List Code) :=
  match cb with
  | [] => some []
  | c :: cs => (Code.fromByte c).bind (fun k => (codesOf cs).map (fun ks => k :: ks))

/-- Value of a nonempty all-digit character list, none otherwise. -/
def digitsVal : List Char → Option Nat
  | [] => none
  | cs => go cs 0
where
  go : List Char → Nat → Option Nat
    | [], acc => some acc
    | c :: cs, acc => if c.isDigit then go cs (acc * 10 + (c.toNat - 48)) else none

/-- Rust's uN::from_str: an optional leading plus sign, then decimal
digits only, rejecting values outside the type's range. -/
def parseUInt (w : Nat) (s : String) : Option Nat :=
  let cs := match s.data with
    | '+' :: r => r
    | r => r
  (digitsVal cs).bind (fun v => if v < 2 ^ w then some v else none)

/-- Rust's iN::from_str: an optional sign, then decimal digits only,
rejecting values outside the type's range. -/
def parseSInt (w : Nat) (s : String) : Option Int :=
  match s.data with
  | '-' :: r => (digitsVal r).bind (fun v => if v ≤ 2 ^ (w - 1) then some (-(v : Int)) else none)
  | '+' :: r => (digitsVal r).bind (fun v => if v < 2 ^ (w - 1) then some ((v : Int)) else none)
  | r => (digitsVal r).bind (fun v => if v < 2 ^ (w - 1) then some ((v : Int)) else none)

/-- Two's-complement big-endian bytes of a signed value in range
(iN::to_be_bytes): the value reduced modulo 2^(8w), then written out. -/
def sbeBytes (w : Nat) (v : Int) : Bytes :=
  beBytes w ((v % ((2 : Int) ^ (8 * w))).toNat)

/-- Signed reinterpretation of a w-byte big-endian value
(iN::from_be_bytes composed with the unsigned read). -/
def sbeVal (w : Nat) (bs : Bytes) : Int :=
  let n := beVal bs
  if n < 2 ^ (8 * w - 1) then (n : Int) else (n : Int) - (2 : Int) ^ (8 * w)

/-- Modelled from the spec: Rust's f32/f64 parsing ("canonical numeric
parser") and rendering ("standard shortest-round-trip rendering") are
floating-point library behavior outside this repository. The program
never inspects the parsed value: it stores the parser's big-endian bytes
verbatim and prints with the standard renderer on the way out. The codec
is therefore kept abstract, constrained only by the byte widths the
source guarantees (f32::to_be_bytes is 4 bytes, f64::to_be_bytes is 8). -/
structure FloatCodec where
  parse32 : String → Option Bytes
  render32 : Bytes → String
  parse64 : String → Option Bytes
  render64 : Bytes → String
  parse32_len : ∀ s bs, parse32 s = some bs → bs.length = 4
  parse64_len : ∀ s bs, parse64 s = some bs → bs.length = 8

/-- Trivial instantiation of the abstract float codec, used to evaluate
the model on concrete inputs. -/
def fcUnit : FloatCodec where
  parse32 := fun _ => some [0, 0, 0, 0]
  render32 := fun _ => "0"
  parse64 := fun _ => some [0, 0, 0, 0, 0, 0, 0, 0]
  render64 := fun _ => "0"
  parse32_len := by intro s bs h; cases h; rfl
  parse64_len := by intro s bs h; cases h; rfl

/-- The as-cast from i64 to u64 at src/main.rs line 146: reinterpretation
of the signed nanosecond count modulo 2^64. -/
def toU64 (n : Int) : Nat := (n % ((2 : Int) ^ 64)).toNat

/-- Modelled from the spec: Rust's str::split_whitespace semantics for
the line grammar — split on whitespace, discarding empty fragments.
The whitespace set is restricted to the ASCII whitespace characters
actually occurring in the input grammar. -/
def isWs (c : Char) : Bool := c = ' ' || c = '\t' || c = '\n' || c = '\r'

/-- Core of the tokenizer: walk the characters, collecting the current
token in an accumulator. -/
def splitWsGo : List Char → List Char → List (List Char)
  | [], acc => if acc.isEmpty then [] else [acc.reverse]
  | c :: cs, acc =>
    if isWs c then
      if acc.isEmpty then splitWsGo cs [] else acc.reverse :: splitWsGo cs []
    else splitWsGo cs (c :: acc)

/-- Tokenize one input line (str::split_whitespace). -/
def splitWs (s : String) : List String := (splitWsGo s.data []).map (fun l => ⟨l⟩)

/-- Whether a year is a leap year in the proleptic Gregorian calendar. -/
def isLeap (y : Nat) : Bool := y % 4 = 0 && (y % 100 ≠ 0 || y % 400 = 0)

/-- Number of days in a month of the proleptic Gregorian calendar. -/
def daysInMonth (y m : Nat) : Nat :=
  if m = 2 then (if isLeap y then 29 else 28)
  else if m = 4 || m = 6 || m = 9 || m = 11 then 30
  else 31

/-- Days from the civil date (y, m, d) to 1970-01-01, the standard
era-based algorithm, computed over Nat by shifting the year by 400
(exactly 146097 days) so that intermediate values stay nonnegative. -/
def daysFromCivil (y m d : Nat) : Int :=
  let ys := y + 400
  let yy := if m ≤ 2 then ys - 1 else ys
  let era := yy / 400
  let yoe := yy % 400
  let mp := (m + 9) % 12
  let doy := (153 * mp + 2) / 5 + d - 1
  let doe := yoe * 365 + yoe / 4 - yoe / 100 + doy
  ((era * 146097 + doe : Nat) : Int) - 719468 - 146097

/-- Civil date from a nonnegative count of days since 1970-01-01
(the inverse era-based algorithm). -/
def civilFromDays (z : Nat) : Nat × Nat × Nat :=
  let zz := z + 719468
  let era := zz / 146097
  let doe := zz % 146097
  let yoe := (doe - doe / 1460 + doe / 36524 - doe / 146096) / 365
  let y := yoe + era * 400
  let doy := doe - (365 * yoe + yoe / 4 - yoe / 100)
  let mp := (5 * doy + 2) / 153
  let d := doy - (153 * mp + 2) / 5 + 1
  let m := if mp < 10 then mp + 3 else mp - 9
  (if m ≤ 2 then y + 1 else y, m, d)

/-- Decimal digit value of a character, if it is one. -/
def digitVal (c : Char) : Option Nat :=
  if c.isDigit then some (c.toNat - 48) else none

/-- Fractional-second digits after the dot: one to nine digits, scaled
to nanoseconds. -/
def parseFrac (cs : List Char) : Option Nat :=
  if cs.length = 0 || 9 < cs.length then none
  else (digitsVal cs).map (fun v => v * 10 ^ (9 - cs.length))

/-- Nanoseconds since the epoch of a calendar timestamp, after range
checks on each field (chrono rejects out-of-range components). -/
def mkNanos (y mo d h mi se frac : Nat) : Option Int :=
  if 1 ≤ mo ∧ mo ≤ 12 ∧ 1 ≤ d ∧ d ≤ daysInMonth y mo ∧ h ≤ 23 ∧ mi ≤ 59 ∧ se ≤ 59 then
    some ((daysFromCivil y mo d * 86400 + ((h * 3600 + mi * 60 + se : Nat) : Int)) * 1000000000
      + (frac : Int))
  else none

/-- Modelled from the spec: parsing of the canonical timestamp format
YYYY-MM-DDTHH:MM:SS[.fraction] (chrono NaiveDateTime::parse_from_str
with format %FT%T%.f) into a signed nanosecond count. The model covers
four-digit years and fixed-width fields, the shape the format prints;
chrono's tolerance for shorter numeric fields is outside the model. -/
def parseDT (s : String) : Option Int :=
  match s.data with
  | [y1, y2, y3, y4, '-', m1, m2, '-', d1, d2, 'T', h1, h2, ':', i1, i2, ':', s1, s2] => do
    let y ← digitsVal [y1, y2, y3, y4]
    let mo ← digitsVal [m1, m2]
    let d ← digitsVal [d1, d2]
    let h ← digitsVal [h1, h2]
    let mi ← digitsVal [i1, i2]
    let se ← digitsVal [s1, s2]
    mkNanos y mo d h mi se 0
  | y1 :: y2 :: y3 :: y4 :: '-' :: m1 :: m2 :: '-' :: d1 :: d2 :: 'T' :: h1 :: h2 :: ':'
      :: i1 :: i2 :: ':' :: s1 :: s2 :: '.' :: rest => do
    let y ← digitsVal [y1, y2, y3, y4]
    let mo ← digitsVal [m1, m2]
    let d ← digitsVal [d1, d2]
    let h ← digitsVal [h1, h2]
    let mi ← digitsVal [i1, i2]
    let se ← digitsVal [s1, s2]
    let frac ← parseFrac rest
    mkNanos y mo d h mi se frac
  | _ => none

/-- Decimal rendering of a number zero-padded to a given width. -/
def padN (w n : Nat) : String :=
  let s := toString n
  (⟨List.replicate (w - s.length) '0'⟩ : String) ++ s

/-- Rendering of the subsecond part under chrono's %.f: empty when zero,
otherwise a dot and 3, 6 or 9 digits depending on trailing zeros. -/
def fracString (ns : Nat) : String :=
  if ns = 0 then ""
  else if ns % 1000000 = 0 then "." ++ padN 3 (ns / 1000000)
  else if ns % 1000 = 0 then "." ++ padN 6 (ns / 1000)
  else "." ++ padN 9 ns

/-- Modelled from the spec: the read path's timestamp rendering. The
stored u64 nanosecond count is split into seconds and subseconds
(src/main.rs lines 230-236), turned into a calendar timestamp
(NaiveDateTime::from_timestamp) and formatted with %FT%T%.f. The i64
cast of the second count is the identity here because a u64 nanosecond
count divided by 10^9 is below 2^63. -/
def formatTs (n : Nat) : String :=
  let secs := n / 1000000000
  let nsec := n % 1000000000
  let days := secs / 86400
  let sod := secs % 86400
  let ymd := civilFromDays days
  padN 4 ymd.1 ++ "-" ++ padN 2 ymd.2.1 ++ "-" ++ padN 2 ymd.2.2 ++ "T"
    ++ padN 2 (sod / 3600) ++ ":" ++ padN 2 (sod % 3600 / 60) ++ ":" ++ padN 2 (sod % 60)
    ++ fracString nsec

example : parseDT "1970-01-01T00:00:00" = some 0 := by decide
example : formatTs 0 = "1970-01-01T00:00:00" := by decide
example : parseDT "2001-01-13T12:09:14.026490" = some 979387754026490000 := by decide
example : formatTs 979387754026490000 = "2001-01-13T12:09:14.026490" := by decide
example : parseDT "1969-12-31T23:59:59" = some (-1000000000) := by decide

/-- Tokens of a glob pattern: literal characters, single-character and
any-sequence wildcards, and bracketed character classes (a negation flag
plus inclusive character ranges). -/
inductive GTok where
  | lit (c : Char)
  | one
  | many
  | cls (neg : Bool) (ranges : List (Char × Char))
  deriving DecidableEq

/-- Body of a bracketed class after the opening bracket (and optional
negation): members and ranges up to the closing bracket. A dash directly
before the closing bracket is a literal member. Returns the parsed
ranges and the characters after the class; none when unclosed. -/
def clsBody : List Char → Option (List (Char × Char) × List Char)
  | [] => none
  | ']' :: r => some ([], r)
  | a :: '-' :: b :: r =>
    if b = ']' then some ([(a, a), ('-', '-')], r)
    else (clsBody r).map (fun pr => ((a, b) :: pr.1, pr.2))
  | a :: r => (clsBody r).map (fun pr => ((a, a) :: pr.1, pr.2))

/-- Negation flag of a class: a bang directly after the opening bracket
negates the class and is consumed. -/
def clsAfterBracket (r : List Char) : Bool × List Char :=
  match r with
  | '!' :: rr => (true, rr)
  | _ => (false, r)

/-- Class parse after the optional negation: a closing bracket in first
position is a literal member; an otherwise empty class is an error. -/
def clsParse : List Char → Option (List (Char × Char) × List Char)
  | ']' :: r3 => (clsBody r3).map (fun pr => ((']', ']') :: pr.1, pr.2))
  | r2 => (clsBody r2).bind (fun pr => if pr.1.isEmpty then none else some pr)

/-- Modelled from the spec: parsing of a glob pattern string into tokens,
standard * / ? / bracket-class semantics (the glob crate's
Pattern::new); none models a pattern error. Fuel (one unit per token,
the character count always suffices) keeps the recursion structural. -/
def patternToks : Nat → List Char → Option (List GTok)
  | _, [] => some []
  | 0, _ :: _ => none
  | f + 1, c :: r =>
    if c = '*' then (patternToks f r).map (fun ts => .many :: ts)
    else if c = '?' then (patternToks f r).map (fun ts => .one :: ts)
    else if c = '[' then
      let state := clsAfterBracket r
      match clsParse state.2 with
      | some pr => (patternToks f pr.2).map (fun ts => .cls state.1 pr.1 :: ts)
      | none => none
    else (patternToks f r).map (fun ts => .lit c :: ts)

/-- Pattern::new on a pattern string. -/
def patternNew (s : String) : Option (List GTok) := patternToks s.data.length s.data

/-- Whether a character is inside a class's ranges. -/
def inRanges (rs : List (Char × Char)) (c : Char) : Bool :=
  rs.any (fun p => p.1.toNat ≤ c.toNat && c.toNat ≤ p.2.toNat)

/-- Modelled from the spec: glob matching with standard semantics —
? matches one character, * any sequence, classes by membership, with
the default case-sensitive options. Fuel-structured recursion (every
step shortens the pattern or the text, so the sum plus one suffices). -/
def globMatchGo : Nat → List GTok → List Char → Bool
  | 0, _, _ => false
  | _ + 1, [], [] => true
  | _ + 1, [], _ :: _ => false
  | f + 1, .many :: ps, [] => globMatchGo f ps []
  | f + 1, .many :: ps, c :: cs =>
    globMatchGo f ps (c :: cs) || globMatchGo f (.many :: ps) cs
  | f + 1, .one :: ps, _ :: cs => globMatchGo f ps cs
  | _ + 1, .one :: _, [] => false
  | f + 1, .lit a :: ps, c :: cs => a == c && globMatchGo f ps cs
  | _ + 1, .lit _ :: _, [] => false
  | f + 1, .cls neg rs :: ps, c :: cs => (inRanges rs c != neg) && globMatchGo f ps cs
  | _ + 1, .cls _ _ :: _, [] => false

/-- Glob matching of a token list against a name's characters. -/
def globMatch (ps : List GTok) (cs : List Char) : Bool :=
  globMatchGo (ps.length + cs.length + 1) ps cs

/-- Pattern::escape(p) == p exactly when the pattern has no glob
metacharacter, the test the read path uses to choose the range-scan
strategy (src/main.rs line 213); escape brackets exactly the four
metacharacters. -/
def isLiteralPat (s : String) : Bool :=
  s.data.all (fun c => !(c = '?' || c = '*' || c = '[' || c = ']'))

example : patternNew "air-*" = some [.lit 'a', .lit 'i', .lit 'r', .lit '-', .many] := by decide
example : globMatch [.lit 'a', .many] ['a', 'b', 'c'] = true := by decide
example : globMatch [.many] [] = true := by decide
example : patternNew "a[x-z]b" = some [.lit 'a', .cls false [('x', 'z')], .lit 'b'] := by decide
example : patternNew "a[!x-z]b" = some [.lit 'a', .cls true [('x', 'z')], .lit 'b'] := by decide
example : patternNew "a[]]b" = some [.lit 'a', .cls false [(']', ']')], .lit 'b'] := by decide
example : patternNew "a[" = none := by decide
example : isLiteralPat "air-1" = true := by decide
example : isLiteralPat "air-*" = false := by decide

/-- The LMDB store: an association list of key-value byte strings that
the engine keeps sorted by key in byte-lexicographic order. -/
abbrev Db := List (Bytes × Bytes)

/-- An LMDB get: the value stored under a key, if any. -/
def dbGet (db : Db) (k : Bytes) : Option Bytes :=
  (db.find? (fun e => e.1 == k)).map (fun e => e.2)

/-- An LMDB put: insert at the sorted position, or replace an equal key. -/
def dbPut (db : Db) (k v : Bytes) : Db :=
  match db with
  | [] => [(k, v)]
  | (k1, v1) :: rest =>
    if bytesLt k k1 then (k, v) :: (k1, v1) :: rest
    else if k == k1 then (k, v) :: rest
    else (k1, v1) :: dbPut rest k v

/-- Key of the last (greatest) entry of the sorted store. -/
def lastKey (db : Db) : Option Bytes := (db.getLast?).map (fun e => e.1)

/-- An LMDB put with MDB_APPEND (src/main.rs line 178): accepted only
when the key is strictly greater than the current maximum key, otherwise
the engine reports KeyExist, which the source maps to the out-of-order
error string. -/
def dbAppend (db : Db) (k v : Bytes) : Except String Db :=
  match lastKey db with
  | none => .ok (db ++ [(k, v)])
  | some m => if bytesLt m k then .ok (db ++ [(k, v)]) else .error "inserted value not ordered"

/-- Forward range iteration from an inclusive lower bound to the end of
the store (the unfiltered and glob read paths). -/
def dbRangeFrom (db : Db) (lo : Bytes) : Db :=
  db.filter (fun e => !bytesLt e.1 lo)

/-- Forward range iteration over an inclusive range (the literal-filter
read path). -/
def dbRangeIncl (db : Db) (lo hi : Bytes) : Db :=
  db.filter (fun e => !bytesLt e.1 lo && !bytesLt hi e.1)

/-- Parsing and big-endian packing of one value token per type code
(the match arms of src/main.rs lines 149-175). Integer parsers are
concrete; float parsing delegates to the abstract codec. -/
def encodeOne (fc : FloatCodec) (k : Code) (v : String) : Except String Bytes :=
  match k with
  | .Float =>
    match fc.parse32 v with
    | some bs => .ok bs
    | none => .error "numeric parse error"
  | .Double =>
    match fc.parse64 v with
    | some bs => .ok bs
    | none => .error "numeric parse error"
  | .Unsigned =>
    match parseUInt 32 v with
    | some n => .ok (beBytes 4 n)
    | none => .error "numeric parse error"
  | .UnsignedLong =>
    match parseUInt 64 v with
    | some n => .ok (beBytes 8 n)
    | none => .error "numeric parse error"
  | .Signed =>
    match parseSInt 32 v with
    | some n => .ok (sbeBytes 4 n)
    | none => .error "numeric parse error"
  | .SignedLong =>
    match parseSInt 64 v with
    | some n => .ok (sbeBytes 8 n)
    | none => .error "numeric parse error"

/-- Value encoding of src/main.rs lines 148-176: walk the code bytes
zipped with the value tokens, parse each token with the type's parser
and append its big-endian bytes; the first failure aborts. -/
def encodeValues (fc : FloatCodec) : Bytes → List String → Except String Bytes
  | c :: cb, v :: vs =>
    match Code.fromByte c with
    | none => .error "Invalid code character"
    | some k =>
      match encodeOne fc k v with
      | .error e => .error e
      | .ok bs =>
        match encodeValues fc cb vs with
        | .error e => .error e
        | .ok rest => .ok (bs ++ rest)
  | _, _ => .ok []

/-- Tail of one line's processing after the schema step (src/main.rs
lines 141-184): the field-count check against the code string's byte
length, the timestamp parse and cast, value encoding, and the
append-only insertion. The returned pair carries the schema cache and
the transaction state. -/
def afterSchema (fc : FloatCodec) (vc : Option Bytes) (db : Db) (text date : String)
    (cb : Bytes) (values : List String) : Except String (Option Bytes × Db) :=
  if cb.length ≠ values.length then .error "wrong number of values"
  else
    match parseDT date with
    | none => .error "datetime parse error"
    | some n =>
      match encodeValues fc cb values with
      | .error e => .error e
      | .ok buf =>
        match dbAppend db (Key.bytesEncode text (toU64 n)) buf with
        | .error e => .error e
        | .ok db2 => .ok (vc, db2)

/-- Processing of one input line (src/main.rs lines 121-185): tokenize,
extract name, date and code string (missing-token errors in source
order), then resolve the schema — a cached schema must match the line's
code string byte-for-byte, and an absent schema is established by
writing the sentinel before anything else — and continue with
afterSchema. -/
def processLine (fc : FloatCodec) (vc : Option Bytes) (db : Db) (line : String) :
    Except String (Option Bytes × Db) :=
  match splitWs line with
  | [] => .error "missing text"
  | [_] => .error "missing date"
  | [_, _] => .error "missing code"
  | text :: date :: code :: values =>
    let cb := utf8Bytes code
    match vc with
    | some old =>
      if old = cb then afterSchema fc (some old) db text date cb values
      else .error "invalid code"
    | none => afterSchema fc (some cb) (dbPut db sentinelKey cb) text date cb values

/-- Folding processLine over the input lines inside the write
transaction; the first error aborts the whole run. -/
def writeSteps (fc : FloatCodec) : Option Bytes → Db → List String → Except String Db
  | _, db, [] => .ok db
  | vc, db, l :: ls =>
    match processLine fc vc db l with
    | .error e => .error e
    | .ok (vc2, db2) => writeSteps fc vc2 db2 ls

/-- One write invocation's transaction body (write_to_database): read the
sentinel into the schema cache, then process every line of the stream. -/
def writeRun (fc : FloatCodec) (db : Db) (lines : List String) : Except String Db :=
  writeSteps fc (dbGet db sentinelKey) db lines

/-- The whole write command against the persisted store: the transaction
body runs on a staged copy; only a fully successful run commits, any
error leaves the persisted store exactly as it was (the early returns in
write_to_database skip wtxn.commit, dropping the transaction). -/
def writeCommand (fc : FloatCodec) (db : Db) (lines : List String) : Db × Option String :=
  match writeRun fc db lines with
  | .ok db2 => (db2, none)
  | .error e => (db, some e)

example :
    writeCommand fcUnit []
      ["air-1 2001-01-13T12:09:14.026490 u 7", "air-1 2001-01-13T12:09:15 u 8"]
      = ([(sentinelKey, [117]),
          (Key.bytesEncode "air-1" 979387754026490000, [0, 0, 0, 7]),
          (Key.bytesEncode "air-1" 979387755000000000, [0, 0, 0, 8])], none) := by decide
example :
    writeCommand fcUnit [] ["air-1 2001-01-13T12:09:15 u 8", "air-1 2001-01-13T12:09:15 u 9"]
      = ([], some "inserted value not ordered") := by decide

/-- Decimal rendering of one field read from the cursor, per type code
(the match arms of src/main.rs lines 248-273). -/
def renderOne (fc : FloatCodec) (k : Code) (field : Bytes) : String :=
  match k with
  | .Float => fc.render32 field
  | .Double => fc.render64 field
  | .Unsigned => toString (beVal field)
  | .UnsignedLong => toString (beVal field)
  | .Signed => toString (sbeVal 4 field)
  | .SignedLong => toString (sbeVal 8 field)

/-- Value decoding and printing for one row (src/main.rs lines 246-278):
read each field's fixed-width big-endian bytes from the cursor and write
its decimal rendering, a single space after every field but the last.
The result is the text written so far plus an error when the cursor runs
out of bytes mid-row (the partial text reaches the output stream, since
the buffered writer flushes on drop). -/
def renderVals (fc : FloatCodec) : List Code → Bytes → String × Option String
  | [], _ => ("", none)
  | k :: ks, bytes =>
    let w := k.width
    if bytes.length < w then ("", some "failed to fill whole buffer")
    else
      let txt := renderOne fc k (bytes.take w)
      let sep := if ks.isEmpty then "" else " "
      let rest := renderVals fc ks (bytes.drop w)
      (txt ++ sep ++ rest.1, rest.2)

/-- Row loop of read_from_database (lines 227-281): decode each key,
format the timestamp, apply the glob filter when present (skipping
non-matches before anything is printed), then print the row. The
accumulated string is everything written to the output stream; a
decoding failure or short value blob stops the loop, keeping the text
already produced. -/
def emitEntries (fc : FloatCodec) (codes : List Code) (pat : Option (List GTok)) :
    Db → String → String × Option String
  | [], acc => (acc, none)
  | (k, v) :: rest, acc =>
    match Key.bytesDecode k with
    | .panic => (acc, some "panic: subtract with overflow")
    | .fail => (acc, some "error while decoding")
    | .ok text nanos =>
      let dt := formatTs nanos
      let keep :=
        match pat with
        | some toks => globMatch toks text.data
        | none => true
      if keep then
        let head := acc ++ text ++ " " ++ dt ++ " "
        let vals := renderVals fc codes v
        match vals.2 with
        | some e => (head ++ vals.1, some e)
        | none => emitEntries fc codes pat rest (head ++ vals.1 ++ "\n")
      else emitEntries fc codes pat rest acc

/-- read_from_database: an empty store produces no output; otherwise the
schema comes from the first entry's value, the iteration strategy is
chosen by the filter (a pattern equal to its own escape is scanned as a
bounded range, anything else as a full scan from just above the
sentinel), each schema byte is unwrapped through Code::from (a panic on
an invalid byte), and the matching rows are printed. The result is the
full output text plus the run's error, if any. -/
def readRun (fc : FloatCodec) (db : Db) (filter : Option String) : String × Option String :=
  match db with
  | [] => ("", none)
  | (_, code) :: _ =>
    match filter with
    | some pat =>
      match patternNew pat with
      | none => ("", some "invalid glob pattern")
      | some toks =>
        let entries :=
          if isLiteralPat pat then
            dbRangeIncl db (utf8Bytes pat ++ beBytes 8 0) (utf8Bytes pat ++ beBytes 8 (2 ^ 64 - 1))
          else dbRangeFrom db (beBytes 8 1)
        match codesOf code with
        | none => ("", some "panic: invalid code character")
        | some codes => emitEntries fc codes (some toks) entries ""
    | none =>
      match codesOf code with
      | none => ("", some "panic: invalid code character")
      | some codes => emitEntries fc codes none (dbRangeFrom db (beBytes 8 1)) ""

/-- infos_of_database: print the schema string when the sentinel exists
(failing on invalid UTF-8), then the entry count, the store's pair count
minus one with Nat's saturating subtraction. -/
def infosRun (db : Db) : Except String (List String) :=
  match dbGet db sentinelKey with
  | some code =>
    match utf8Decode code with
    | none => .error "invalid utf-8"
    | some s =>
      .ok ["values code: " ++ s, "number of entries: " ++ toString (db.length - 1)]
  | none => .ok ["number of entries: " ++ toString (db.length - 1)]

example :
    readRun fcUnit
      [(sentinelKey, [117]),
        (Key.bytesEncode "air-1" 979387754026490000, [0, 0, 0, 7]),
        (Key.bytesEncode "air-1" 979387755000000000, [0, 0, 0, 8])] none
      = ("air-1 2001-01-13T12:09:14.026490 7\nair-1 2001-01-13T12:09:15 8\n", none) := by decide
example :
    readRun fcUnit
      [(sentinelKey, [117]),
        (Key.bytesEncode "air-1" 979387754026490000, [0, 0, 0, 7]),
        (Key.bytesEncode "air-2" 979387755000000000, [0, 0, 0, 8])] (some "air-1")
      = ("air-1 2001-01-13T12:09:14.026490 7\n", none) := by decide
example :
    readRun fcUnit
      [(sentinelKey, [117]),
        (Key.bytesEncode "air-1" 979387754026490000, [0, 0, 0, 7]),
        (Key.bytesEncode "air-2" 979387755000000000, [0, 0, 0, 8])] (some "air-*")
      = ("air-1 2001-01-13T12:09:14.026490 7\nair-2 2001-01-13T12:09:15 8\n", none) := by decide
example :
    readRun fcUnit [(sentinelKey, [117])] (some "")
      = (" 1970-01-01T00:00:00 ", some "failed to fill whole buffer") := by decide
example : infosRun [(sentinelKey, [117]), (Key.bytesEncode "air-1" 5, [0, 0, 0, 7])]
      = .ok ["values code: u", "number of entries: 1"] := by decide
example : infosRun [] = .ok ["number of entries: 0"] := by decide

theorem beBytes_length (w n : Nat) : (beBytes w n).length = w := by
  induction w generalizing n with
  | zero => rfl
  | succ w ih => simp [beBytes, ih]

theorem beVal_beBytes (w n : Nat) (h : n < 256 ^ w) : beVal (beBytes w n) = n := by
  induction w generalizing n with
  | zero =>
    simp [beBytes, beVal]
    omega
  | succ w ih =>
    have hW : 0 < 256 ^ w := Nat.pos_pow_of_pos w (by omega)
    have hm : n % 256 ^ w < 256 ^ w := Nat.mod_lt _ hW
    have hd : n / 256 ^ w < 256 := by
      rw [Nat.div_lt_iff_lt_mul hW]
      calc n < 256 ^ (w + 1) := h
        _ = 256 * 256 ^ w := by ring
    simp [beBytes, beVal, beBytes_length, ih _ hm]
    rw [Nat.mod_eq_of_lt hd]
    have h1 := Nat.div_add_mod n (256 ^ w)
    have h2 : 256 ^ w * (n / 256 ^ w) = n / 256 ^ w * 256 ^ w := Nat.mul_comm _ _
    omega

theorem bytesLt_append_left (p a b : Bytes) : bytesLt (p ++ a) (p ++ b) = bytesLt a b := by
  induction p with
  | nil => rfl
  | cons x p ih =>
    simp [bytesLt, ih]

theorem bytesLt_beBytes (w a b : Nat) (ha : a < 256 ^ w) (hb : b < 256 ^ w) :
    bytesLt (beBytes w a) (beBytes w b) = decide (a < b) := by
  induction w generalizing a b with
  | zero =>
    simp [beBytes, bytesLt]
    omega
  | succ w ih =>
    have hW : 0 < 256 ^ w := Nat.pos_pow_of_pos w (by omega)
    have hpow : 256 ^ (w + 1) = 256 ^ w * 256 := by ring
    have hda : a / 256 ^ w < 256 := by
      rw [Nat.div_lt_iff_lt_mul hW]; omega
    have hdb : b / 256 ^ w < 256 := by
      rw [Nat.div_lt_iff_lt_mul hW]; omega
    have hma : a % 256 ^ w < 256 ^ w := Nat.mod_lt _ hW
    have hmb : b % 256 ^ w < 256 ^ w := Nat.mod_lt _ hW
    simp only [beBytes, bytesLt, Nat.mod_eq_of_lt hda, Nat.mod_eq_of_lt hdb,
      ih _ _ hma hmb]
    have hea := Nat.div_add_mod a (256 ^ w)
    have heb := Nat.div_add_mod b (256 ^ w)
    rcases Nat.lt_trichotomy (a / 256 ^ w) (b / 256 ^ w) with h | h | h
    · have hab : a < b := Nat.lt_of_div_lt_div h
      simp [h, hab]
    · have : (a % 256 ^ w < b % 256 ^ w) ↔ (a < b) := by
        constructor
        · intro hlt
          have h2 : 256 ^ w * (a / 256 ^ w) = 256 ^ w * (b / 256 ^ w) := by rw [h]
          omega
        · intro hlt
          have h2 : 256 ^ w * (a / 256 ^ w) = 256 ^ w * (b / 256 ^ w) := by rw [h]
          omega
      simp [h, this]
    · have hab : b < a := Nat.lt_of_div_lt_div h
      have h1 : ¬ a / 256 ^ w < b / 256 ^ w := by omega
      have h2 : ¬ a / 256 ^ w = b / 256 ^ w := by omega
      have h3 : ¬ a < b := by omega
      simp [h1, h2, h3]

theorem char_valid_nat (c : Char) :
    c.toNat < 0xD800 ∨ (0xDFFF < c.toNat ∧ c.toNat < 0x110000) := by
  have h := c.valid
  unfold UInt32.isValidChar Nat.isValidChar at h
  exact h

theorem utf8DecodeGo_encodeChar (f : Nat) (c : Char) (rest : Bytes) :
    utf8DecodeGo (f + 1) (utf8EncodeChar c ++ rest)
      = (utf8DecodeGo f rest).map (fun cs => c :: cs) := by
  have hv := char_valid_nat c
  have hc : Char.ofNat c.toNat = c := Char.ofNat_toNat c
  rcases Nat.lt_or_ge c.toNat 0x80 with h1 | h1
  · have he : utf8EncodeChar c = [c.toNat] := by
      unfold utf8EncodeChar
      rw [if_pos h1]
    rw [he, List.cons_append, List.nil_append]
    simp only [utf8DecodeGo]
    rw [if_pos h1, hc]
  rcases Nat.lt_or_ge c.toNat 0x800 with h2 | h2
  · have he : utf8EncodeChar c = [0xC0 + c.toNat / 64, 0x80 + c.toNat % 64] := by
      unfold utf8EncodeChar
      rw [if_neg (by omega), if_pos h2]
    rw [he, List.cons_append, List.cons_append, List.nil_append]
    simp only [utf8DecodeGo]
    rw [if_neg (by omega), if_neg (by omega), if_pos (by omega), if_pos (by omega)]
    have harg : (0xC0 + c.toNat / 64 - 0xC0) * 64 + (0x80 + c.toNat % 64 - 0x80) = c.toNat := by
      omega
    rw [harg, hc]
  rcases Nat.lt_or_ge c.toNat 0x10000 with h3 | h3
  · have he : utf8EncodeChar c
        = [0xE0 + c.toNat / 4096, 0x80 + c.toNat / 64 % 64, 0x80 + c.toNat % 64] := by
      unfold utf8EncodeChar
      rw [if_neg (by omega), if_neg (by omega), if_pos h3]
    rw [he, List.cons_append, List.cons_append, List.cons_append, List.nil_append]
    simp only [utf8DecodeGo]
    rw [if_neg (by omega), if_neg (by omega), if_neg (by omega), if_pos (by omega),
      if_pos (by omega)]
    have harg : (0xE0 + c.toNat / 4096 - 0xE0) * 4096 + (0x80 + c.toNat / 64 % 64 - 0x80) * 64
        + (0x80 + c.toNat % 64 - 0x80) = c.toNat := by
      omega
    rw [harg, hc]
  · have he : utf8EncodeChar c
        = [0xF0 + c.toNat / 262144, 0x80 + c.toNat / 4096 % 64, 0x80 + c.toNat / 64 % 64,
            0x80 + c.toNat % 64] := by
      unfold utf8EncodeChar
      rw [if_neg (by omega), if_neg (by omega), if_neg (by omega)]
    rw [he, List.cons_append, List.cons_append, List.cons_append, List.cons_append,
      List.nil_append]
    simp only [utf8DecodeGo]
    rw [if_neg (by omega), if_neg (by omega), if_neg (by omega), if_neg (by omega),
      if_pos (by omega), if_pos (by omega)]
    have harg : (0xF0 + c.toNat / 262144 - 0xF0) * 262144
        + (0x80 + c.toNat / 4096 % 64 - 0x80) * 4096
        + (0x80 + c.toNat / 64 % 64 - 0x80) * 64 + (0x80 + c.toNat % 64 - 0x80) = c.toNat := by
      omega
    rw [harg, hc]

theorem utf8DecodeGo_chars (cs : List Char) (f : Nat) (hf : cs.length ≤ f) :
    utf8DecodeGo f (cs.foldr (fun c acc => utf8EncodeChar c ++ acc) []) = some cs := by
  induction cs generalizing f with
  | nil => simp [utf8DecodeGo]
  | cons c cs ih =>
    match f with
    | 0 => simp at hf
    | f + 1 =>
      rw [List.foldr_cons, utf8DecodeGo_encodeChar, ih f (by simpa using hf)]
      rfl

theorem utf8EncodeChar_length_pos (c : Char) : 0 < (utf8EncodeChar c).length := by
  unfold utf8EncodeChar
  split
  · simp
  split
  · simp
  split
  · simp
  · simp

theorem utf8Bytes_length_ge (s : String) : s.data.length ≤ (utf8Bytes s).length := by
  unfold utf8Bytes
  induction s.data with
  | nil => simp
  | cons c cs ih =>
    simp only [List.foldr_cons, List.length_append, List.length_cons]
    have := utf8EncodeChar_length_pos c
    omega

theorem utf8Decode_utf8Bytes (s : String) : utf8Decode (utf8Bytes s) = some s := by
  have h := utf8DecodeGo_chars s.data (utf8Bytes s).length (utf8Bytes_length_ge s)
  rw [show s.data.foldr (fun c acc => utf8EncodeChar c ++ acc) [] = utf8Bytes s from rfl] at h
  unfold utf8Decode
  rw [h]
  rfl

theorem bytesDecode_bytesEncode (t : String) (ts : Nat) (h : ts < 2 ^ 64) :
    Key.bytesDecode (Key.bytesEncode t ts) = .ok t ts := by
  unfold Key.bytesDecode Key.bytesEncode
  have hlen : (utf8Bytes t ++ beBytes 8 ts).length = (utf8Bytes t).length + 8 := by
    simp [beBytes_length]
  rw [if_neg (by omega)]
  have htl : (utf8Bytes t ++ beBytes 8 ts).length - 8 = (utf8Bytes t).length := by omega
  rw [htl]
  have htake : (utf8Bytes t ++ beBytes 8 ts).take (utf8Bytes t).length = utf8Bytes t :=
    List.take_left (utf8Bytes t) (beBytes 8 ts)
  have hdrop : (utf8Bytes t ++ beBytes 8 ts).drop (utf8Bytes t).length = beBytes 8 ts :=
    List.drop_left (utf8Bytes t) (beBytes 8 ts)
  have hv : beVal (beBytes 8 ts) = ts := beVal_beBytes 8 ts (by norm_num at h ⊢; omega)
  simp only [htake, hdrop, utf8Decode_utf8Bytes, hv]

/-- The ok branch of an Except value, as an Option. -/
def exOk {α : Type} : Except String α → Option α
  | .ok a => some a
  | .error _ => none

/-- One well-formed input line, split into its grammar positions:
series name, timestamp text, type-code string and value tokens. -/
structure LineData where
  name : String
  date : String
  code : String
  vals : List String

/-- Token list of a line (name, date, code, then the values). -/
def ldTokens (ld : LineData) : List String := ld.name :: ld.date :: ld.code :: ld.vals

/-- Signed nanosecond count of the line's timestamp. -/
def ldNanosI (ld : LineData) : Int := (parseDT ld.date).getD 0

/-- Stored u64 timestamp of the line (after the as-cast). -/
def ldTs (ld : LineData) : Nat := toU64 (ldNanosI ld)

/-- Composite key the line is stored under. -/
def ldKey (ld : LineData) : Bytes := Key.bytesEncode ld.name (ldTs ld)

/-- Encoded value blob of the line. -/
def ldBuf (fc : FloatCodec) (ld : LineData) : Bytes :=
  (exOk (encodeValues fc (utf8Bytes ld.code) ld.vals)).getD []

/-- Key-value pair the line is stored as. -/
def ldEntry (fc : FloatCodec) (ld : LineData) : Bytes × Bytes := (ldKey ld, ldBuf fc ld)

/-- Well-formedness of one line with respect to a schema cb: the code
string matches the schema, the series name's first byte is nonzero (it
does not begin with a NUL character), the value count matches, the
timestamp parses, is post-epoch, fits an i64 and is in canonical textual
form, and every value token parses under its type code. -/
structure WFLine (fc : FloatCodec) (cb : Bytes) (ld : LineData) : Prop where
  code_eq : utf8Bytes ld.code = cb
  name_head : 0 < (utf8Bytes ld.name).headD 0
  count_eq : cb.length = ld.vals.length
  date_some : (parseDT ld.date).isSome
  nanos_nonneg : 0 ≤ ldNanosI ld
  nanos_lt : ldNanosI ld < 2 ^ 63
  date_canon : formatTs (ldTs ld) = ld.date
  vals_ok : (exOk (encodeValues fc (utf8Bytes ld.code) ld.vals)).isSome

theorem ldTs_eq (ld : LineData) (h0 : 0 ≤ ldNanosI ld) (h1 : ldNanosI ld < 2 ^ 63) :
    (ldTs ld : Int) = ldNanosI ld := by
  unfold ldTs toU64
  rw [Int.emod_eq_of_lt h0 (by omega)]
  exact Int.toNat_of_nonneg h0

theorem ldTs_lt (ld : LineData) (h0 : 0 ≤ ldNanosI ld) (h1 : ldNanosI ld < 2 ^ 63) :
    ldTs ld < 2 ^ 64 := by
  have h := ldTs_eq ld h0 h1
  have : (ldTs ld : Int) < 2 ^ 64 := by rw [h]; omega
  exact_mod_cast this

theorem zeros_bytesLt (k : Nat) (l : Bytes) (h : k < l.length) :
    bytesLt (List.replicate k 0) l = true := by
  induction k generalizing l with
  | zero =>
    match l with
    | [] => simp at h
    | x :: xs => simp [bytesLt]
  | succ k ih =>
    match l with
    | [] => simp at h
    | x :: xs =>
      simp only [List.replicate, bytesLt]
      rcases Nat.eq_zero_or_pos x with hx | hx
      · subst hx
        simp [ih xs (by simpa using h)]
      · simp [hx]

theorem sentinelKey_eq : sentinelKey = List.replicate 8 0 := by decide

theorem utf8Bytes_ne_nil (s : String) (h : s ≠ "") : utf8Bytes s ≠ [] := by
  intro hc
  have h1 := utf8Bytes_length_ge s
  rw [hc] at h1
  simp at h1
  apply h
  cases s
  simp_all

theorem bytesLt_sentinel_key (nm : String) (ts : Nat) (h : 0 < (utf8Bytes nm).headD 0) :
    bytesLt sentinelKey (Key.bytesEncode nm ts) = true := by
  unfold Key.bytesEncode
  match hb : utf8Bytes nm with
  | [] => rw [hb] at h; simp at h
  | b0 :: bs =>
    rw [hb] at h
    simp only [List.headD] at h
    rw [sentinelKey_eq]
    show bytesLt (0 :: List.replicate 7 0) (b0 :: (bs ++ beBytes 8 ts)) = true
    simp [bytesLt, h]

theorem key_not_lt_lowBound (nm : String) (ts : Nat) (h : 0 < (utf8Bytes nm).headD 0) :
    bytesLt (Key.bytesEncode nm ts) (beBytes 8 1) = false := by
  unfold Key.bytesEncode
  match hb : utf8Bytes nm with
  | [] => rw [hb] at h; simp at h
  | b0 :: bs =>
    rw [hb] at h
    simp only [List.headD] at h
    show bytesLt (b0 :: (bs ++ beBytes 8 ts)) (0 :: beBytes 7 (1 % 256 ^ 7)) = false
    simp [bytesLt]
    omega

theorem afterSchema_ok (fc : FloatCodec) (cb : Bytes) (vc : Option Bytes) (db db2 : Db)
    (ld : LineData) (hwf : WFLine fc cb ld)
    (happ : dbAppend db (ldKey ld) (ldBuf fc ld) = .ok db2) :
    afterSchema fc vc db ld.name ld.date (utf8Bytes ld.code) ld.vals = .ok (vc, db2) := by
  unfold afterSchema
  rw [if_neg (by rw [hwf.code_eq, hwf.count_eq]; exact fun hne => hne rfl)]
  have hsome := hwf.date_some
  match hn : parseDT ld.date with
  | none => rw [hn] at hsome; simp at hsome
  | some n =>
    have hn2 : ldNanosI ld = n := by unfold ldNanosI; rw [hn]; rfl
    have hok := hwf.vals_ok
    match henc : encodeValues fc (utf8Bytes ld.code) ld.vals with
    | .error e => rw [henc] at hok; simp [exOk] at hok
    | .ok buf =>
      have hbuf : ldBuf fc ld = buf := by unfold ldBuf; rw [henc]; rfl
      have hts : ldTs ld = toU64 n := by unfold ldTs; rw [hn2]
      rw [ldKey, hts, hbuf] at happ
      simp only [happ]

theorem processLine_some_ok (fc : FloatCodec) (cb : Bytes) (db db2 : Db) (ld : LineData)
    (line : String) (htok : splitWs line = ldTokens ld) (hwf : WFLine fc cb ld)
    (happ : dbAppend db (ldKey ld) (ldBuf fc ld) = .ok db2) :
    processLine fc (some cb) db line = .ok (some cb, db2) := by
  unfold processLine
  rw [htok]
  show (if cb = utf8Bytes ld.code then
      afterSchema fc (some cb) db ld.name ld.date (utf8Bytes ld.code) ld.vals
    else .error "invalid code") = .ok (some cb, db2)
  rw [if_pos hwf.code_eq.symm]
  exact afterSchema_ok fc cb (some cb) db db2 ld hwf happ

theorem processLine_none_ok (fc : FloatCodec) (cb : Bytes) (db db2 : Db) (ld : LineData)
    (line : String) (htok : splitWs line = ldTokens ld) (hwf : WFLine fc cb ld)
    (happ : dbAppend (dbPut db sentinelKey (utf8Bytes ld.code)) (ldKey ld) (ldBuf fc ld)
      = .ok db2) :
    processLine fc none db line = .ok (some (utf8Bytes ld.code), db2) := by
  unfold processLine
  rw [htok]
  show afterSchema fc (some (utf8Bytes ld.code)) (dbPut db sentinelKey (utf8Bytes ld.code))
      ld.name ld.date (utf8Bytes ld.code) ld.vals = .ok (some (utf8Bytes ld.code), db2)
  exact afterSchema_ok fc cb _ _ db2 ld hwf happ

theorem lastKey_append (db : Db) (k v : Bytes) : lastKey (db ++ [(k, v)]) = some k := by
  unfold lastKey
  rw [List.getLast?_concat]
  rfl

theorem dbAppend_last_ok (db : Db) (k v m : Bytes) (hm : lastKey db = some m)
    (hlt : bytesLt m k = true) : dbAppend db k v = .ok (db ++ [(k, v)]) := by
  unfold dbAppend
  rw [hm]
  simp [hlt]

theorem writeSteps_ok (fc : FloatCodec) (cb : Bytes) (lds : List LineData)
    (lines : List String) (db : Db) (m : Bytes)
    (htok : List.Forall₂ (fun l ld => splitWs l = ldTokens ld) lines lds)
    (hwf : ∀ ld ∈ lds, WFLine fc cb ld)
    (hlast : lastKey db = some m)
    (hchain : List.Chain (fun a b => bytesLt a b = true) m (lds.map ldKey)) :
    writeSteps fc (some cb) db lines = .ok (db ++ lds.map (ldEntry fc)) := by
  induction htok generalizing db m with
  | nil => simp [writeSteps]
  | @cons l ld lines lds h1 hrest ih =>
    simp only [List.map_cons, List.chain_cons] at hchain
    have hwl : WFLine fc cb ld := hwf ld (by simp)
    have happ : dbAppend db (ldKey ld) (ldBuf fc ld) = .ok (db ++ [ldEntry fc ld]) :=
      dbAppend_last_ok db (ldKey ld) (ldBuf fc ld) m hlast hchain.1
    rw [writeSteps, processLine_some_ok fc cb db (db ++ [ldEntry fc ld]) ld l h1 hwl happ]
    show writeSteps fc (some cb) (db ++ [ldEntry fc ld]) lines
      = .ok (db ++ (ld :: lds).map (ldEntry fc))
    rw [ih (db ++ [ldEntry fc ld]) (ldKey ld)
      (fun x hx => hwf x (List.mem_cons_of_mem ld hx))
      (lastKey_append db (ldKey ld) (ldBuf fc ld)) hchain.2]
    simp

/-- State of the store a fully successful write of the given lines
leaves behind, starting from an empty store: nothing for an empty
stream, otherwise the sentinel followed by one entry per line. -/
def dbOfWrite (fc : FloatCodec) (cb : Bytes) (lds : List LineData) : Db :=
  match lds with
  | [] => []
  | _ => (sentinelKey, cb) :: lds.map (ldEntry fc)

theorem writeRun_empty_ok (fc : FloatCodec) (cb : Bytes) (lds : List LineData)
    (lines : List String)
    (htok : List.Forall₂ (fun l ld => splitWs l = ldTokens ld) lines lds)
    (hwf : ∀ ld ∈ lds, WFLine fc cb ld)
    (hchain : List.Chain' (fun a b => bytesLt a b = true) (lds.map ldKey)) :
    writeRun fc [] lines = .ok (dbOfWrite fc cb lds) := by
  match htok with
  | .nil => rfl
  | @List.Forall₂.cons _ _ _ l ld lines2 lds2 h1 hrest =>
    have hwl : WFLine fc cb ld := hwf ld (by simp)
    show writeSteps fc (dbGet [] sentinelKey) [] (l :: lines2) = _
    rw [show dbGet [] sentinelKey = none from rfl]
    rw [writeSteps]
    have happ : dbAppend (dbPut [] sentinelKey (utf8Bytes ld.code)) (ldKey ld) (ldBuf fc ld)
        = .ok ([(sentinelKey, utf8Bytes ld.code)] ++ [ldEntry fc ld]) := by
      rw [show dbPut [] sentinelKey (utf8Bytes ld.code)
        = [(sentinelKey, utf8Bytes ld.code)] from rfl]
      exact dbAppend_last_ok _ _ _ sentinelKey rfl
        (bytesLt_sentinel_key ld.name (ldTs ld) hwl.name_head)
    rw [processLine_none_ok fc cb [] _ ld l h1 hwl happ]
    show writeSteps fc (some (utf8Bytes ld.code))
      ([(sentinelKey, utf8Bytes ld.code)] ++ [ldEntry fc ld]) lines2 = _
    have hchain2 : List.Chain (fun a b => bytesLt a b = true) (ldKey ld)
        (lds2.map ldKey) := by
      rw [List.map_cons] at hchain
      exact hchain
    have hlast2 : lastKey ([(sentinelKey, utf8Bytes ld.code)] ++ [ldEntry fc ld])
        = some (ldKey ld) := lastKey_append _ (ldKey ld) (ldBuf fc ld)
    rw [hwl.code_eq] at hlast2 ⊢
    rw [writeSteps_ok fc cb lds2 lines2 _ (ldKey ld) hrest
      (fun x hx => hwf x (List.mem_cons_of_mem ld hx)) hlast2 hchain2]
    simp [dbOfWrite]

theorem writeCommand_of_error (fc : FloatCodec) (db : Db) (lines : List String) (e : String)
    (h : writeRun fc db lines = .error e) : writeCommand fc db lines = (db, some e) := by
  unfold writeCommand
  rw [h]

theorem afterSchema_vc (fc : FloatCodec) (vc : Option Bytes) (db : Db) (t d : String)
    (cb : Bytes) (vals : List String) (pr : Option Bytes × Db)
    (h : afterSchema fc vc db t d cb vals = .ok pr) : pr.1 = vc := by
  unfold afterSchema at h
  split at h
  · simp at h
  split at h
  · simp at h
  split at h
  · simp at h
  split at h
  · simp at h
  · simp at h
    rw [← h]

theorem processLine_some_vc (fc : FloatCodec) (cb : Bytes) (db : Db) (line : String)
    (pr : Option Bytes × Db) (h : processLine fc (some cb) db line = .ok pr) :
    pr.1 = some cb := by
  unfold processLine at h
  rcases hsp : splitWs line with _ | ⟨t, _ | ⟨d, _ | ⟨c, vs⟩⟩⟩ <;> rw [hsp] at h
  · simp at h
  · simp at h
  · simp at h
  · simp only [] at h
    split at h
    · exact afterSchema_vc fc (some cb) db t d (utf8Bytes c) vs pr h
    · simp at h

theorem processLine_mismatch (fc : FloatCodec) (c0 : Bytes) (db : Db) (line t d c : String)
    (vs : List String) (htok : splitWs line = t :: d :: c :: vs) (hne : utf8Bytes c ≠ c0) :
    processLine fc (some c0) db line = .error "invalid code" := by
  unfold processLine
  rw [htok]
  show (if c0 = utf8Bytes c then
      afterSchema fc (some c0) db t d (utf8Bytes c) vs
    else .error "invalid code") = .error "invalid code"
  rw [if_neg (fun h => hne h.symm)]

theorem writeSteps_mismatch (fc : FloatCodec) (c0 : Bytes) (lines : List String) (db : Db)
    (l t d c : String) (vs : List String) (hl : l ∈ lines)
    (htok : splitWs l = t :: d :: c :: vs) (hne : utf8Bytes c ≠ c0) :
    ∃ e, writeSteps fc (some c0) db lines = .error e := by
  induction lines generalizing db with
  | nil => simp at hl
  | cons l0 ls ih =>
    rcases List.mem_cons.mp hl with heq | hmem
    · refine ⟨"invalid code", ?_⟩
      rw [writeSteps, ← heq, processLine_mismatch fc c0 db l t d c vs htok hne]
    · match hp : processLine fc (some c0) db l0 with
      | .error e => exact ⟨e, by rw [writeSteps, hp]⟩
      | .ok pr =>
        have hvc := processLine_some_vc fc c0 db l0 pr hp
        obtain ⟨e, he⟩ := ih pr.2 hmem
        refine ⟨e, ?_⟩
        rw [writeSteps, hp]
        show writeSteps fc pr.1 pr.2 ls = .error e
        rw [hvc]
        exact he

theorem writeRun_mismatch (fc : FloatCodec) (c0 : Bytes) (db : Db) (lines : List String)
    (l t d c : String) (vs : List String) (hs : dbGet db sentinelKey = some c0)
    (hl : l ∈ lines) (htok : splitWs l = t :: d :: c :: vs) (hne : utf8Bytes c ≠ c0) :
    ∃ e, writeCommand fc db lines = (db, some e) := by
  obtain ⟨e, he⟩ := writeSteps_mismatch fc c0 lines db l t d c vs hl htok hne
  refine ⟨e, writeCommand_of_error fc db lines e ?_⟩
  unfold writeRun
  rw [hs]
  exact he

theorem dbAppend_not_gt (db : Db) (k v m : Bytes) (hm : lastKey db = some m)
    (hnlt : bytesLt m k = false) : dbAppend db k v = .error "inserted value not ordered" := by
  unfold dbAppend
  rw [hm]
  simp [hnlt]

theorem pow_256_8 : (256 : Nat) ^ 8 = 2 ^ 64 := by norm_num

theorem key_same_series_not_lt (nm : String) (t1 t2 : Nat) (h1 : t1 < 2 ^ 64)
    (h2 : t2 < 2 ^ 64) (hle : t2 ≤ t1) :
    bytesLt (Key.bytesEncode nm t1) (Key.bytesEncode nm t2) = false := by
  unfold Key.bytesEncode
  rw [bytesLt_append_left, bytesLt_beBytes 8 t1 t2 (by rw [pow_256_8]; omega)
    (by rw [pow_256_8]; omega)]
  simp
  omega

theorem parseUInt_lt (w : Nat) (s : String) (n : Nat) (h : parseUInt w s = some n) :
    n < 2 ^ w := by
  unfold parseUInt at h
  rw [Option.bind_eq_some] at h
  obtain ⟨v, hv, hif⟩ := h
  split at hif
  · cases hif
    assumption
  · cases hif

theorem parseSInt_bounds (w : Nat) (s : String) (n : Int) (h : parseSInt w s = some n) :
    -((2 : Int) ^ (w - 1)) ≤ n ∧ n < 2 ^ (w - 1) := by
  have hpn : (((2 : Nat) ^ (w - 1) : Nat) : Int) = (2 : Int) ^ (w - 1) := by
    push_cast
    rfl
  have hap : (0 : Int) < 2 ^ (w - 1) := by positivity
  unfold parseSInt at h
  split at h <;>
    (rw [Option.bind_eq_some] at h
     obtain ⟨v, hv, hif⟩ := h
     split at hif <;> cases hif)
  · rename_i hvle
    omega
  · rename_i hvlt
    omega
  · rename_i hvlt
    omega

theorem pow_256_cast (w : Nat) : (((256 : Nat) ^ w : Nat) : Int) = (2 : Int) ^ (8 * w) := by
  push_cast
  rw [pow_mul]
  norm_num

theorem sbeVal_sbeBytes (w : Nat) (v : Int) (hw : 0 < w) (h1 : -((2 : Int) ^ (8 * w - 1)) ≤ v)
    (h2 : v < 2 ^ (8 * w - 1)) : sbeVal w (sbeBytes w v) = v := by
  unfold sbeVal sbeBytes
  have hMpos : (0 : Int) < 2 ^ (8 * w) := by positivity
  have hpow2 : (2 : Int) ^ (8 * w) = 2 ^ (8 * w - 1) * 2 := by
    rw [← pow_succ]
    congr 1
    omega
  have hr0 : (0 : Int) ≤ v % 2 ^ (8 * w) := Int.emod_nonneg v (by positivity)
  have hrlt : v % 2 ^ (8 * w) < 2 ^ (8 * w) := Int.emod_lt_of_pos v hMpos
  have hrval : v % 2 ^ (8 * w) = v ∨ v % 2 ^ (8 * w) = v + 2 ^ (8 * w) := by
    rcases le_or_lt 0 v with hv | hv
    · left
      exact Int.emod_eq_of_lt hv (by omega)
    · right
      have h3 : (v + 2 ^ (8 * w) * 1) % 2 ^ (8 * w) = v % 2 ^ (8 * w) :=
        Int.add_mul_emod_self_left v (2 ^ (8 * w)) 1
      rw [mul_one] at h3
      rw [← h3, Int.emod_eq_of_lt (by omega) (by omega)]
  have hlt : (v % 2 ^ (8 * w)).toNat < 256 ^ w := by
    have := pow_256_cast w
    omega
  rw [beVal_beBytes w _ hlt]
  have hcast : (((v % 2 ^ (8 * w)).toNat : Nat) : Int) = v % 2 ^ (8 * w) :=
    Int.toNat_of_nonneg hr0
  have hpn : (((2 : Nat) ^ (8 * w - 1) : Nat) : Int) = (2 : Int) ^ (8 * w - 1) := by
    push_cast
    rfl
  show (if (v % 2 ^ (8 * w)).toNat < 2 ^ (8 * w - 1) then ((v % 2 ^ (8 * w)).toNat : Int)
    else ((v % 2 ^ (8 * w)).toNat : Int) - 2 ^ (8 * w)) = v
  split
  · rename_i hsmall
    omega
  · rename_i hbig
    omega

/-- Canonical textual rendering of one value token under a type code:
the token parsed by the type's parser, printed by the type's renderer —
an integer's exact decimal value, a float as the standard renderer
prints the parsed bytes. -/
def canonTok (fc : FloatCodec) (c : Nat) (tok : String) : String :=
  match Code.fromByte c with
  | some .Float => fc.render32 ((fc.parse32 tok).getD [])
  | some .Double => fc.render64 ((fc.parse64 tok).getD [])
  | some .Unsigned => toString ((parseUInt 32 tok).getD 0)
  | some .UnsignedLong => toString ((parseUInt 64 tok).getD 0)
  | some .Signed => toString ((parseSInt 32 tok).getD 0)
  | some .SignedLong => toString ((parseSInt 64 tok).getD 0)
  | none => ""

/-- Space-separated join, with no trailing separator. -/
def joinSp : List String → String
  | [] => ""
  | [x] => x
  | x :: xs => x ++ " " ++ joinSp xs

theorem codesOf_cons (c : Nat) (cb : Bytes) (codes : List Code)
    (h : codesOf (c :: cb) = some codes) :
    ∃ k ks, Code.fromByte c = some k ∧ codesOf cb = some ks ∧ codes = k :: ks := by
  rw [codesOf] at h
  rcases hk : Code.fromByte c with _ | k <;> rw [hk] at h
  · simp at h
  rcases hks : codesOf cb with _ | ks <;> rw [hks] at h
  · simp at h
  simp at h
  exact ⟨k, ks, rfl, rfl, h.symm⟩

theorem renderVals_step (fc : FloatCodec) (k : Code) (ks : List Code) (bs rest : Bytes)
    (hlen : bs.length = k.width) :
    renderVals fc (k :: ks) (bs ++ rest)
      = (renderOne fc k bs ++ (if ks.isEmpty then "" else " ") ++ (renderVals fc ks rest).1,
         (renderVals fc ks rest).2) := by
  rw [renderVals]
  show (if (bs ++ rest).length < k.width then ("", some "failed to fill whole buffer")
    else (renderOne fc k ((bs ++ rest).take k.width)
        ++ (if ks.isEmpty then "" else " ") ++ (renderVals fc ks ((bs ++ rest).drop k.width)).1,
      (renderVals fc ks ((bs ++ rest).drop k.width)).2)) = _
  rw [if_neg (by simp [List.length_append, hlen])]
  rw [List.take_left' hlen, List.drop_left' hlen]

theorem encodeOne_length (fc : FloatCodec) (k : Code) (v : String) (bs : Bytes)
    (h : encodeOne fc k v = .ok bs) : bs.length = k.width := by
  cases k
  case Float =>
    rw [encodeOne] at h
    rcases hp : fc.parse32 v with _ | x <;> rw [hp] at h <;> dsimp only [] at h <;> cases h
    exact fc.parse32_len v _ hp
  case Double =>
    rw [encodeOne] at h
    rcases hp : fc.parse64 v with _ | x <;> rw [hp] at h <;> dsimp only [] at h <;> cases h
    exact fc.parse64_len v _ hp
  case Unsigned =>
    rw [encodeOne] at h
    rcases hp : parseUInt 32 v with _ | x <;> rw [hp] at h <;> dsimp only [] at h <;> cases h
    exact beBytes_length 4 _
  case UnsignedLong =>
    rw [encodeOne] at h
    rcases hp : parseUInt 64 v with _ | x <;> rw [hp] at h <;> dsimp only [] at h <;> cases h
    exact beBytes_length 8 _
  case Signed =>
    rw [encodeOne] at h
    rcases hp : parseSInt 32 v with _ | x <;> rw [hp] at h <;> dsimp only [] at h <;> cases h
    exact beBytes_length 4 _
  case SignedLong =>
    rw [encodeOne] at h
    rcases hp : parseSInt 64 v with _ | x <;> rw [hp] at h <;> dsimp only [] at h <;> cases h
    exact beBytes_length 8 _

theorem renderOne_encodeOne (fc : FloatCodec) (k : Code) (v : String) (bs : Bytes) (c : Nat)
    (h : encodeOne fc k v = .ok bs) (hc : Code.fromByte c = some k) :
    renderOne fc k bs = canonTok fc c v := by
  unfold canonTok
  rw [hc]
  cases k
  case Float =>
    rw [encodeOne] at h
    rcases hp : fc.parse32 v with _ | x <;> rw [hp] at h <;> dsimp only [] at h <;> cases h
    rfl
  case Double =>
    rw [encodeOne] at h
    rcases hp : fc.parse64 v with _ | x <;> rw [hp] at h <;> dsimp only [] at h <;> cases h
    rfl
  case Unsigned =>
    rw [encodeOne] at h
    rcases hp : parseUInt 32 v with _ | x <;> rw [hp] at h <;> dsimp only [] at h <;> cases h
    show toString (beVal (beBytes 4 x)) = toString ((some x).getD 0)
    rw [beVal_beBytes 4 x (by have := parseUInt_lt 32 v x hp; norm_num at this ⊢; omega)]
    rfl
  case UnsignedLong =>
    rw [encodeOne] at h
    rcases hp : parseUInt 64 v with _ | x <;> rw [hp] at h <;> dsimp only [] at h <;> cases h
    show toString (beVal (beBytes 8 x)) = toString ((some x).getD 0)
    rw [beVal_beBytes 8 x (by have := parseUInt_lt 64 v x hp; norm_num at this ⊢; omega)]
    rfl
  case Signed =>
    rw [encodeOne] at h
    rcases hp : parseSInt 32 v with _ | x <;> rw [hp] at h <;> dsimp only [] at h <;> cases h
    show toString (sbeVal 4 (sbeBytes 4 x)) = toString ((some x).getD 0)
    have hb := parseSInt_bounds 32 v x hp
    rw [sbeVal_sbeBytes 4 x (by omega) (by norm_num at hb ⊢; omega)
      (by norm_num at hb ⊢; omega)]
    rfl
  case SignedLong =>
    rw [encodeOne] at h
    rcases hp : parseSInt 64 v with _ | x <;> rw [hp] at h <;> dsimp only [] at h <;> cases h
    show toString (sbeVal 8 (sbeBytes 8 x)) = toString ((some x).getD 0)
    have hb := parseSInt_bounds 64 v x hp
    rw [sbeVal_sbeBytes 8 x (by omega) (by norm_num at hb ⊢; omega)
      (by norm_num at hb ⊢; omega)]
    rfl

theorem renderVals_encodeValues (fc : FloatCodec) (cb : Bytes) (vals : List String)
    (codes : List Code) (buf : Bytes) (hcodes : codesOf cb = some codes)
    (henc : encodeValues fc cb vals = .ok buf) (hcount : cb.length = vals.length) :
    renderVals fc codes buf
      = (joinSp ((cb.zip vals).map (fun p => canonTok fc p.1 p.2)), none) := by
  induction cb generalizing vals codes buf with
  | nil =>
    match vals with
    | [] =>
      rw [show codesOf [] = some [] from rfl] at hcodes
      cases hcodes
      rw [show encodeValues fc [] [] = .ok [] from rfl] at henc
      cases henc
      rfl
    | v :: vs => simp at hcount
  | cons c cb ih =>
    match vals with
    | [] => simp at hcount
    | v :: vs =>
      obtain ⟨k, ks, hk, hks, hceq⟩ := codesOf_cons c cb codes hcodes
      subst hceq
      rw [encodeValues, hk] at henc
      dsimp only [] at henc
      have hcount2 : cb.length = vs.length := by simpa using hcount
      have hkse : ks.isEmpty = ((cb.zip vs).map (fun p => canonTok fc p.1 p.2)).isEmpty := by
        match cb with
        | [] =>
          rw [show codesOf [] = some [] from rfl] at hks
          cases hks
          rfl
        | c2 :: cb2 =>
          obtain ⟨k2, ks2, _, _, hceq2⟩ := codesOf_cons c2 cb2 ks hks
          subst hceq2
          match vs with
          | [] => simp at hcount2
          | v2 :: vs2 => rfl
      rcases hone : encodeOne fc k v with e | bs <;> rw [hone] at henc
      · cases henc
      rcases hrest : encodeValues fc cb vs with e | rest <;> rw [hrest] at henc <;>
        dsimp only [] at henc
      · cases henc
      cases henc
      rw [renderVals_step fc k ks bs rest (encodeOne_length fc k v bs hone)]
      rw [ih vs ks rest hks hrest hcount2]
      rw [renderOne_encodeOne fc k v bs c hone hk]
      rw [show (c :: cb).zip (v :: vs) = (c, v) :: cb.zip vs from rfl, List.map_cons]
      match hz : (cb.zip vs).map (fun p => canonTok fc p.1 p.2) with
      | [] =>
        rw [hz] at hkse
        simp only [hkse, hz]
        show (canonTok fc c v ++ "" ++ joinSp [], none) = (joinSp [canonTok fc c v], none)
        simp [joinSp, String.append_empty]
      | z :: zs =>
        rw [hz] at hkse
        simp only [hkse, hz]
        show (canonTok fc c v ++ " " ++ joinSp (z :: zs), none)
          = (joinSp (canonTok fc c v :: z :: zs), none)
        rw [show joinSp (canonTok fc c v :: z :: zs)
          = canonTok fc c v ++ " " ++ joinSp (z :: zs) by rw [joinSp]; simp]

/-- Concatenation of output rows into the output stream's text. -/
def concatRows : List String → String
  | [] => ""
  | r :: rs => r ++ concatRows rs

/-- A stored data point in decoded form: series name, u64 timestamp and
value blob. -/
structure RecData where
  name : String
  ts : Nat
  blob : Bytes

/-- The key-value pair a data point is stored as. -/
def recEntry (r : RecData) : Bytes × Bytes := (Key.bytesEncode r.name r.ts, r.blob)

/-- A store holding the sentinel under schema cb followed by the given
data points. -/
def mkDb (cb : Bytes) (rs : List RecData) : Db := (sentinelKey, cb) :: rs.map recEntry

/-- The output row a data point prints as. -/
def recRow (fc : FloatCodec) (codes : List Code) (r : RecData) : String :=
  r.name ++ " " ++ formatTs r.ts ++ " " ++ (renderVals fc codes r.blob).1 ++ "\n"

/-- Whether the optional pattern keeps a data point. -/
def keepRec (pat : Option (List GTok)) (r : RecData) : Bool :=
  match pat with
  | some toks => globMatch toks r.name.data
  | none => true

theorem emitEntries_model (fc : FloatCodec) (codes : List Code) (pat : Option (List GTok))
    (rs : List RecData) (acc : String)
    (hwf : ∀ r ∈ rs, r.ts < 2 ^ 64 ∧ (renderVals fc codes r.blob).2 = none) :
    emitEntries fc codes pat (rs.map recEntry) acc
      = (acc ++ concatRows ((rs.filter (keepRec pat)).map (recRow fc codes)), none) := by
  induction rs generalizing acc with
  | nil => simp [emitEntries, concatRows, String.append_empty]
  | cons r rs ih =>
    obtain ⟨hts, hrv⟩ := hwf r (by simp)
    rw [List.map_cons]
    rw [show recEntry r = (Key.bytesEncode r.name r.ts, r.blob) from rfl]
    rw [emitEntries]
    rw [bytesDecode_bytesEncode r.name r.ts hts]
    cases pat with
    | none =>
      dsimp only []
      rw [if_pos rfl, hrv]
      rw [ih _ (fun x hx => hwf x (List.mem_cons_of_mem r hx))]
      rw [List.filter_cons, show keepRec none r = true from rfl, if_pos rfl, List.map_cons]
      rw [show concatRows (recRow fc codes r
          :: (rs.filter (keepRec none)).map (recRow fc codes))
        = recRow fc codes r ++ concatRows ((rs.filter (keepRec none)).map (recRow fc codes))
        from rfl]
      rw [recRow]
      simp [String.append_assoc]
    | some toks =>
      dsimp only []
      rcases hg : globMatch toks r.name.data with _ | _
      · rw [if_neg (fun hc => Bool.noConfusion hc)]
        rw [ih acc (fun x hx => hwf x (List.mem_cons_of_mem r hx))]
        rw [List.filter_cons,
          show keepRec (some toks) r = globMatch toks r.name.data from rfl, hg,
          if_neg (fun hc => Bool.noConfusion hc)]
      · rw [if_pos rfl, hrv]
        rw [ih _ (fun x hx => hwf x (List.mem_cons_of_mem r hx))]
        rw [List.filter_cons,
          show keepRec (some toks) r = globMatch toks r.name.data from rfl, hg,
          if_pos rfl, List.map_cons]
        rw [show concatRows (recRow fc codes r
            :: (rs.filter (keepRec (some toks))).map (recRow fc codes))
          = recRow fc codes r
            ++ concatRows ((rs.filter (keepRec (some toks))).map (recRow fc codes))
          from rfl]
        rw [recRow]
        simp [String.append_assoc]

theorem filter_map_comm {α β : Type} (f : α → β) (p : β → Bool) (l : List α) :
    (l.map f).filter p = (l.filter (fun a => p (f a))).map f := by
  induction l with
  | nil => rfl
  | cons a l ih =>
    rw [List.map_cons, List.filter_cons, List.filter_cons]
    rcases hp : p (f a) with _ | _
    · simp [ih]
    · simp [ih]

theorem filter_filter_bool {α : Type} (p q : α → Bool) (l : List α) :
    (l.filter p).filter q = l.filter (fun a => p a && q a) := by
  induction l with
  | nil => rfl
  | cons a l ih =>
    rw [List.filter_cons, List.filter_cons]
    rcases hp : p a with _ | _
    · simp [ih]
    · simp [List.filter_cons, ih]

theorem rangeFrom_mkDb (cb : Bytes) (rs : List RecData)
    (hwf : ∀ r ∈ rs, 0 < (utf8Bytes r.name).headD 0) :
    dbRangeFrom (mkDb cb rs) (beBytes 8 1) = rs.map recEntry := by
  unfold dbRangeFrom mkDb
  rw [List.filter_cons]
  have h1 : bytesLt sentinelKey (beBytes 8 1) = true := by decide
  rw [if_neg (by rw [h1]; exact fun hc => Bool.noConfusion hc)]
  exact List.filter_eq_self.mpr (fun e he => by
    obtain ⟨r, hr, rfl⟩ := List.mem_map.mp he
    show (!bytesLt (Key.bytesEncode r.name r.ts) (beBytes 8 1)) = true
    rw [key_not_lt_lowBound r.name r.ts (hwf r hr)]
    rfl)

/-- Whether a data point's key lies inside the literal filter's bounded
range scan. -/
def inLitRange (pat : String) (r : RecData) : Bool :=
  !bytesLt (recEntry r).1 (utf8Bytes pat ++ beBytes 8 0)
    && !bytesLt (utf8Bytes pat ++ beBytes 8 (2 ^ 64 - 1)) (recEntry r).1

theorem rangeIncl_mkDb_lit (cb : Bytes) (rs : List RecData) (pat : String) (hne : pat ≠ "") :
    dbRangeIncl (mkDb cb rs) (utf8Bytes pat ++ beBytes 8 0)
        (utf8Bytes pat ++ beBytes 8 (2 ^ 64 - 1))
      = (rs.filter (inLitRange pat)).map recEntry := by
  unfold dbRangeIncl mkDb
  rw [List.filter_cons]
  have h0 : 0 < (utf8Bytes pat).length := by
    have := utf8Bytes_ne_nil pat hne
    match hb : utf8Bytes pat with
    | [] => exact absurd hb this
    | b :: bs => simp
  have h1 : bytesLt sentinelKey (utf8Bytes pat ++ beBytes 8 0) = true := by
    rw [sentinelKey_eq]
    exact zeros_bytesLt 8 _ (by simp [beBytes_length]; omega)
  rw [if_neg (by rw [h1]; exact fun hc => Bool.noConfusion hc)]
  rw [filter_map_comm]
  rfl

theorem key_in_lit_range (nm : String) (ts : Nat) (h : ts < 2 ^ 64) :
    inLitRange nm ⟨nm, ts, []⟩ = true ∧
    ∀ blob, inLitRange nm ⟨nm, ts, blob⟩ = true := by
  have key : ∀ blob : Bytes, inLitRange nm ⟨nm, ts, blob⟩ = true := by
    intro blob
    unfold inLitRange recEntry
    show (!bytesLt (Key.bytesEncode nm ts) (utf8Bytes nm ++ beBytes 8 0)
      && !bytesLt (utf8Bytes nm ++ beBytes 8 (2 ^ 64 - 1)) (Key.bytesEncode nm ts)) = true
    unfold Key.bytesEncode
    rw [bytesLt_append_left, bytesLt_append_left]
    rw [bytesLt_beBytes 8 ts 0 (by rw [pow_256_8]; omega) (by rw [pow_256_8]; omega)]
    rw [bytesLt_beBytes 8 (2 ^ 64 - 1) ts (by rw [pow_256_8]; omega) (by rw [pow_256_8]; omega)]
    simp
    omega
  exact ⟨key [], key⟩

theorem globMatchGo_lit (ps : List Char) (cs : List Char) (f : Nat)
    (hf : ps.length + cs.length < f) :
    globMatchGo f (ps.map GTok.lit) cs = decide (ps = cs) := by
  induction ps generalizing cs f with
  | nil =>
    match f, cs with
    | 0, _ => omega
    | f + 1, [] => simp [globMatchGo]
    | f + 1, c :: cs => simp [globMatchGo]
  | cons p ps ih =>
    match f, cs with
    | 0, _ => omega
    | f + 1, [] => simp [globMatchGo]
    | f + 1, c :: cs =>
      rw [List.map_cons]
      rw [show globMatchGo (f + 1) (GTok.lit p :: ps.map GTok.lit) (c :: cs)
        = (p == c && globMatchGo f (ps.map GTok.lit) cs) from rfl]
      rw [ih cs f (by simp at hf ⊢; omega)]
      by_cases hpc : p = c
      · subst hpc
        simp
      · simp [hpc]

theorem globMatch_lit (ps cs : List Char) :
    globMatch (ps.map GTok.lit) cs = decide (ps = cs) := by
  unfold globMatch
  exact globMatchGo_lit ps cs _ (by simp)

theorem patternToks_lit (cs : List Char) (f : Nat) (hf : cs.length ≤ f)
    (hl : cs.all (fun c => !(c = '?' || c = '*' || c = '[' || c = ']')) = true) :
    patternToks f cs = some (cs.map GTok.lit) := by
  induction cs generalizing f with
  | nil =>
    match f with
    | 0 => rfl
    | f + 1 => rfl
  | cons c cs ih =>
    match f with
    | 0 => simp at hf
    | f + 1 =>
      simp only [List.all_cons, Bool.and_eq_true] at hl
      have hc := hl.1
      simp only [Bool.not_eq_true', Bool.or_eq_false_iff, decide_eq_false_iff_not] at hc
      rw [patternToks]
      rw [if_neg hc.1.1.2, if_neg hc.1.1.1]
      rw [if_neg hc.1.2]
      rw [ih f (by simpa using hf) hl.2]
      rfl

theorem patternNew_lit (s : String) (hl : isLiteralPat s = true) :
    patternNew s = some (s.data.map GTok.lit) := by
  unfold patternNew
  exact patternToks_lit s.data s.data.length (Nat.le_refl _) hl

theorem readRun_none_model (fc : FloatCodec) (codes : List Code) (cb : Bytes)
    (rs : List RecData) (hcodes : codesOf cb = some codes)
    (hwf : ∀ r ∈ rs, 0 < (utf8Bytes r.name).headD 0 ∧ r.ts < 2 ^ 64
      ∧ (renderVals fc codes r.blob).2 = none) :
    readRun fc (mkDb cb rs) none = (concatRows (rs.map (recRow fc codes)), none) := by
  show (match codesOf cb with
    | none => ("", some "panic: invalid code character")
    | some codes => emitEntries fc codes none (dbRangeFrom (mkDb cb rs) (beBytes 8 1)) "")
    = (concatRows (rs.map (recRow fc codes)), none)
  rw [hcodes]
  show emitEntries fc codes none (dbRangeFrom (mkDb cb rs) (beBytes 8 1)) ""
    = (concatRows (rs.map (recRow fc codes)), none)
  rw [rangeFrom_mkDb cb rs (fun r hr => (hwf r hr).1)]
  rw [emitEntries_model fc codes none rs "" (fun r hr => ⟨(hwf r hr).2.1, (hwf r hr).2.2⟩)]
  rw [show rs.filter (keepRec none) = rs from List.filter_eq_self.mpr (fun r hr => rfl)]
  rw [String.empty_append]

theorem readRun_literal_model (fc : FloatCodec) (codes : List Code) (cb : Bytes)
    (rs : List RecData) (pat : String) (hcodes : codesOf cb = some codes)
    (hlit : isLiteralPat pat = true) (hne : pat ≠ "")
    (hwf : ∀ r ∈ rs, r.ts < 2 ^ 64 ∧ (renderVals fc codes r.blob).2 = none) :
    readRun fc (mkDb cb rs) (some pat)
      = (concatRows ((rs.filter (fun r => r.name == pat)).map (recRow fc codes)), none) := by
  show (match patternNew pat with
    | none => ("", some "invalid glob pattern")
    | some toks =>
      match codesOf cb with
      | none => ("", some "panic: invalid code character")
      | some codes => emitEntries fc codes (some toks)
          (if isLiteralPat pat then
            dbRangeIncl (mkDb cb rs) (utf8Bytes pat ++ beBytes 8 0)
              (utf8Bytes pat ++ beBytes 8 (2 ^ 64 - 1))
          else dbRangeFrom (mkDb cb rs) (beBytes 8 1)) "") = _
  rw [patternNew_lit pat hlit]
  show (match codesOf cb with
    | none => ("", some "panic: invalid code character")
    | some codes => emitEntries fc codes (some (pat.data.map GTok.lit))
        (if isLiteralPat pat then
          dbRangeIncl (mkDb cb rs) (utf8Bytes pat ++ beBytes 8 0)
            (utf8Bytes pat ++ beBytes 8 (2 ^ 64 - 1))
        else dbRangeFrom (mkDb cb rs) (beBytes 8 1)) "") = _
  rw [hcodes]
  show emitEntries fc codes (some (pat.data.map GTok.lit))
      (if isLiteralPat pat then
        dbRangeIncl (mkDb cb rs) (utf8Bytes pat ++ beBytes 8 0)
          (utf8Bytes pat ++ beBytes 8 (2 ^ 64 - 1))
      else dbRangeFrom (mkDb cb rs) (beBytes 8 1)) "" = _
  rw [if_pos (by rw [hlit])]
  rw [rangeIncl_mkDb_lit cb rs pat hne]
  rw [emitEntries_model fc codes (some (pat.data.map GTok.lit)) (rs.filter (inLitRange pat)) ""
    (fun r hr => hwf r (List.mem_of_mem_filter hr))]
  rw [String.empty_append]
  rw [filter_filter_bool]
  rw [List.filter_congr (fun r hr => ?_)]
  rw [show keepRec (some (pat.data.map GTok.lit)) r = globMatch (pat.data.map GTok.lit) r.name.data
    from rfl]
  rw [globMatch_lit]
  by_cases hn : r.name = pat
  · subst hn
    rw [(key_in_lit_range r.name r.ts (hwf r hr).1).2 r.blob]
    simp
  · have hd : pat.data ≠ r.name.data := fun hc => hn (String.ext hc).symm
    simp [hd, hn]

theorem readRun_glob_model (fc : FloatCodec) (codes : List Code) (cb : Bytes)
    (rs : List RecData) (pat : String) (toks : List GTok) (hcodes : codesOf cb = some codes)
    (hnl : isLiteralPat pat = false) (hparse : patternNew pat = some toks)
    (hwf : ∀ r ∈ rs, 0 < (utf8Bytes r.name).headD 0 ∧ r.ts < 2 ^ 64
      ∧ (renderVals fc codes r.blob).2 = none) :
    readRun fc (mkDb cb rs) (some pat)
      = (concatRows ((rs.filter (fun r => globMatch toks r.name.data)).map (recRow fc codes)),
         none) := by
  show (match patternNew pat with
    | none => ("", some "invalid glob pattern")
    | some toks =>
      match codesOf cb with
      | none => ("", some "panic: invalid code character")
      | some codes => emitEntries fc codes (some toks)
          (if isLiteralPat pat then
            dbRangeIncl (mkDb cb rs) (utf8Bytes pat ++ beBytes 8 0)
              (utf8Bytes pat ++ beBytes 8 (2 ^ 64 - 1))
          else dbRangeFrom (mkDb cb rs) (beBytes 8 1)) "") = _
  rw [hparse]
  show (match codesOf cb with
    | none => ("", some "panic: invalid code character")
    | some codes => emitEntries fc codes (some toks)
        (if isLiteralPat pat then
          dbRangeIncl (mkDb cb rs) (utf8Bytes pat ++ beBytes 8 0)
            (utf8Bytes pat ++ beBytes 8 (2 ^ 64 - 1))
        else dbRangeFrom (mkDb cb rs) (beBytes 8 1)) "") = _
  rw [hcodes]
  show emitEntries fc codes (some toks)
      (if isLiteralPat pat then
        dbRangeIncl (mkDb cb rs) (utf8Bytes pat ++ beBytes 8 0)
          (utf8Bytes pat ++ beBytes 8 (2 ^ 64 - 1))
      else dbRangeFrom (mkDb cb rs) (beBytes 8 1)) "" = _
  rw [if_neg (by rw [hnl]; exact fun hc => Bool.noConfusion hc)]
  rw [rangeFrom_mkDb cb rs (fun r hr => (hwf r hr).1)]
  rw [emitEntries_model fc codes (some toks) rs ""
    (fun r hr => ⟨(hwf r hr).2.1, (hwf r hr).2.2⟩)]
  rw [String.empty_append]
  rfl

/-- The decoded data point a well-formed line is stored as. -/
def ldRec (fc : FloatCodec) (ld : LineData) : RecData := ⟨ld.name, ldTs ld, ldBuf fc ld⟩

theorem dbOfWrite_eq_mkDb (fc : FloatCodec) (cb : Bytes) (lds : List LineData)
    (h : lds ≠ []) : dbOfWrite fc cb lds = mkDb cb (lds.map (ldRec fc)) := by
  match lds with
  | [] => exact absurd rfl h
  | ld :: lds2 =>
    unfold dbOfWrite mkDb
    rw [List.map_map]
    rfl

theorem encodeValues_codesOf (fc : FloatCodec) (cb : Bytes) (vals : List String) (buf : Bytes)
    (h : encodeValues fc cb vals = .ok buf) (hcount : cb.length = vals.length) :
    ∃ codes, codesOf cb = some codes := by
  induction cb generalizing vals buf with
  | nil => exact ⟨[], rfl⟩
  | cons c cb ih =>
    match vals with
    | [] => simp at hcount
    | v :: vs =>
      rw [encodeValues] at h
      rcases hk : Code.fromByte c with _ | k <;> rw [hk] at h <;> dsimp only [] at h
      · cases h
      rcases hone : encodeOne fc k v with e | bs <;> rw [hone] at h <;> dsimp only [] at h
      · cases h
      rcases hrest : encodeValues fc cb vs with e | rest <;> rw [hrest] at h <;>
        dsimp only [] at h
      · cases h
      obtain ⟨ks, hks⟩ := ih vs rest hrest (by simpa using hcount)
      refine ⟨k :: ks, ?_⟩
      rw [codesOf, hk, hks]
      rfl

theorem ldBuf_spec (fc : FloatCodec) (cb : Bytes) (ld : LineData) (hwf : WFLine fc cb ld) :
    encodeValues fc (utf8Bytes ld.code) ld.vals = .ok (ldBuf fc ld) := by
  have hok := hwf.vals_ok
  match henc : encodeValues fc (utf8Bytes ld.code) ld.vals with
  | .error e => rw [henc] at hok; simp [exOk] at hok
  | .ok buf =>
    have : ldBuf fc ld = buf := by unfold ldBuf; rw [henc]; rfl
    rw [this]

theorem ldRec_wf (fc : FloatCodec) (cb : Bytes) (codes : List Code) (ld : LineData)
    (hwf : WFLine fc cb ld) (hcodes : codesOf cb = some codes) :
    0 < (utf8Bytes (ldRec fc ld).name).headD 0 ∧ (ldRec fc ld).ts < 2 ^ 64
      ∧ (renderVals fc codes (ldRec fc ld).blob).2 = none := by
  refine ⟨hwf.name_head, ldTs_lt ld hwf.nanos_nonneg hwf.nanos_lt, ?_⟩
  have henc := ldBuf_spec fc cb ld hwf
  rw [hwf.code_eq] at henc
  have hcount : cb.length = ld.vals.length := hwf.count_eq
  rw [show (ldRec fc ld).blob = ldBuf fc ld from rfl]
  rw [renderVals_encodeValues fc cb ld.vals codes (ldBuf fc ld) hcodes henc hcount]

/-- The output row a well-formed input line reappears as after a write
and an unfiltered read: same series name, same timestamp text, and each
numeric field in the canonical rendering of its input token. -/
def ldRow (fc : FloatCodec) (ld : LineData) : String :=
  ld.name ++ " " ++ ld.date ++ " "
    ++ joinSp (((utf8Bytes ld.code).zip ld.vals).map (fun p => canonTok fc p.1 p.2)) ++ "\n"

theorem recRow_ldRec (fc : FloatCodec) (cb : Bytes) (codes : List Code) (ld : LineData)
    (hwf : WFLine fc cb ld) (hcodes : codesOf cb = some codes) :
    recRow fc codes (ldRec fc ld) = ldRow fc ld := by
  unfold recRow ldRow
  have henc := ldBuf_spec fc cb ld hwf
  rw [hwf.code_eq] at henc
  rw [show (ldRec fc ld).blob = ldBuf fc ld from rfl]
  rw [show (ldRec fc ld).name = ld.name from rfl]
  rw [show (ldRec fc ld).ts = ldTs ld from rfl]
  rw [renderVals_encodeValues fc cb ld.vals codes (ldBuf fc ld) hcodes henc hwf.count_eq]
  rw [hwf.date_canon, hwf.code_eq]

theorem write_read_roundtrip (fc : FloatCodec) (cb : Bytes) (lds : List LineData)
    (lines : List String)
    (htok : List.Forall₂ (fun l ld => splitWs l = ldTokens ld) lines lds)
    (hwf : ∀ ld ∈ lds, WFLine fc cb ld)
    (hchain : List.Chain' (fun a b => bytesLt a b = true) (lds.map ldKey)) :
    writeCommand fc [] lines = (dbOfWrite fc cb lds, none)
      ∧ readRun fc (dbOfWrite fc cb lds) none = (concatRows (lds.map (ldRow fc)), none) := by
  have hwr := writeRun_empty_ok fc cb lds lines htok hwf hchain
  constructor
  · unfold writeCommand
    rw [hwr]
  · match lds, htok with
    | [], _ => rfl
    | ld :: lds2, htok =>
      have hwl : WFLine fc cb ld := hwf ld (by simp)
      have henc := ldBuf_spec fc cb ld hwl
      obtain ⟨codes, hcodes⟩ := encodeValues_codesOf fc (utf8Bytes ld.code) ld.vals _ henc
        (by rw [hwl.code_eq]; exact hwl.count_eq)
      rw [hwl.code_eq] at hcodes
      rw [dbOfWrite_eq_mkDb fc cb (ld :: lds2) (by simp)]
      rw [readRun_none_model fc codes cb ((ld :: lds2).map (ldRec fc)) hcodes
        (fun r hr => by
          obtain ⟨x, hx, rfl⟩ := List.mem_map.mp hr
          exact ldRec_wf fc cb codes x (hwf x hx) hcodes)]
      rw [List.map_map]
      rw [List.map_congr_left (fun x hx => ?_)]
      show recRow fc codes (ldRec fc x) = ldRow fc x
      exact recRow_ldRec fc cb codes x (hwf x hx) hcodes

/-- C10: Key encoding and decoding are mutually inverse — for every
valid UTF-8 series name and every unsigned 64-bit timestamp, decoding
the concatenation of the name's UTF-8 bytes with the timestamp's 8-byte
big-endian encoding yields back exactly the same (name, timestamp)
pair. -/
theorem c10_key_roundtrip (name : String) (ts : Nat) (h : ts < 2 ^ 64) :
    Key.bytesDecode (Key.bytesEncode name ts) = .ok name ts :=
  bytesDecode_bytesEncode name ts h

theorem c10_key_roundtrip_witness :
    979387754026490000 < 2 ^ 64
    ∧ Key.bytesDecode (Key.bytesEncode "air-1" 979387754026490000)
      = .ok "air-1" 979387754026490000 :=
  ⟨by decide, c10_key_roundtrip "air-1" 979387754026490000 (by decide)⟩

/-- C7 counterexample: the claim says key decoding fails with an error
rather than crashing whenever the key is shorter than 8 bytes; on the
empty key the source's usize subtraction and slicing panic instead. -/
theorem c7_decode_counterexample : Key.bytesDecode [] = .panic := by decide

/-- C7 (amended): key decoding splits the last 8 bytes as the big-endian
timestamp and the prefix as the UTF-8 name, failing gracefully only on
an invalid UTF-8 prefix; a key shorter than 8 bytes makes it panic, and
it panics exactly then. -/
theorem c7_decode_total_amended (bs : Bytes) :
    (Key.bytesDecode bs = .panic ↔ bs.length < 8)
    ∧ (8 ≤ bs.length →
        Key.bytesDecode bs = (match utf8Decode (bs.take (bs.length - 8)) with
          | none => Key.DecodeResult.fail
          | some nm => .ok nm (beVal (bs.drop (bs.length - 8))))) := by
  unfold Key.bytesDecode
  by_cases h : bs.length < 8
  · rw [if_pos h]
    exact ⟨⟨fun _ => h, fun _ => rfl⟩, fun h8 => absurd h (by omega)⟩
  · rw [if_neg h]
    dsimp only []
    constructor
    · constructor
      · intro hc
        rcases hu : utf8Decode (bs.take (bs.length - 8)) with _ | nm <;> rw [hu] at hc <;>
          cases hc
      · intro hlt
        exact absurd hlt h
    · intro h8
      rfl

theorem c7_decode_total_witness :
    (Key.bytesDecode [0, 0, 0, 0, 0, 0, 0, 5] = .panic
      ↔ ([0, 0, 0, 0, 0, 0, 0, 5] : Bytes).length < 8)
    ∧ Key.bytesDecode [0, 0, 0, 0, 0, 0, 0, 5] = .ok "" 5 := by
  have h := c7_decode_total_amended [0, 0, 0, 0, 0, 0, 0, 5]
  refine ⟨h.1, ?_⟩
  rw [h.2 (by decide)]
  decide

/-- C9 counterexample: the claim says every pre-epoch timestamp —
negative signed nanosecond count — is stored strictly above every
post-epoch timestamp. A date far enough before the epoch that its
nanosecond count is below -2^63 (here 1500-01-01) wraps modulo 2^64 to
a value below 2^63 and stores BELOW the post-epoch date 2090-01-01. -/
theorem c9_timestamp_counterexample :
    (parseDT "1500-01-01T00:00:00").getD 0 < 0
    ∧ 0 ≤ (parseDT "2090-01-01T00:00:00").getD 0
    ∧ toU64 ((parseDT "1500-01-01T00:00:00").getD 0)
      < toU64 ((parseDT "2090-01-01T00:00:00").getD 0) := by
  refine ⟨by decide, by decide, by decide⟩

/-- C9 (amended): the stored 64-bit key component is the signed
nanosecond count reduced modulo 2^64; every pre-epoch timestamp whose
signed count is within i64 range (at least -2^63, i.e. dates from about
1677 on) is stored strictly above every post-epoch timestamp below
2^63, but counts below -2^63 can wrap to small stored values. -/
theorem c9_timestamp_amended (ld : LineData) (a b : Int) :
    ldTs ld = (ldNanosI ld % ((2 : Int) ^ 64)).toNat
    ∧ (-(2 ^ 63) ≤ a → a < 0 → 0 ≤ b → b < 2 ^ 63 → toU64 b < toU64 a) := by
  constructor
  · rfl
  · intro h1 h2 h3 h4
    unfold toU64
    have hM : (0 : Int) < 2 ^ 64 := by positivity
    have hda : a % 2 ^ 64 = a + 2 ^ 64 := by
      have h5 : (a + 2 ^ 64 * 1) % 2 ^ 64 = a % 2 ^ 64 :=
        Int.add_mul_emod_self_left a (2 ^ 64) 1
      rw [mul_one] at h5
      rw [← h5, Int.emod_eq_of_lt (by omega) (by omega)]
    have hdb : b % 2 ^ 64 = b := Int.emod_eq_of_lt h3 (by omega)
    rw [hda, hdb]
    omega

theorem c9_timestamp_witness :
    ldTs ⟨"a", "1969-12-31T23:59:59", "u", ["1"]⟩
      = (ldNanosI ⟨"a", "1969-12-31T23:59:59", "u", ["1"]⟩ % ((2 : Int) ^ 64)).toNat
    ∧ toU64 0 < toU64 (-1000000000) := by
  have h := c9_timestamp_amended ⟨"a", "1969-12-31T23:59:59", "u", ["1"]⟩ (-1000000000) 0
  exact ⟨h.1, h.2 (by decide) (by decide) (by decide) (by decide)⟩

/-- C2: a write invocation is atomic — every record is staged inside the
single write transaction (the Db argument threaded through writeSteps),
the transaction commits only when the whole stream is consumed without
error, and any error anywhere in the run makes writeCommand return the
persisted store exactly as it was before the run. -/
theorem c2_write_atomic (fc : FloatCodec) (db : Db) (lines : List String) (e : String)
    (h : writeRun fc db lines = .error e) : writeCommand fc db lines = (db, some e) :=
  writeCommand_of_error fc db lines e h

theorem c2_write_atomic_witness :
    writeCommand fcUnit [] ["x"] = ([], some "missing date") :=
  c2_write_atomic fcUnit [] ["x"] "missing date" (by decide)

/-- C3: with a sentinel schema already present, any line whose type-code
string differs byte-for-byte from the stored schema makes processLine
fail with the schema-mismatch error before any append of that record
(for any transaction state), and the whole run leaves the persisted
store unchanged. -/
theorem c3_schema_mismatch (fc : FloatCodec) (c0 : Bytes) (db : Db) (lines : List String)
    (l t d c : String) (vs : List String)
    (hs : dbGet db sentinelKey = some c0) (hl : l ∈ lines)
    (htok : splitWs l = t :: d :: c :: vs) (hne : utf8Bytes c ≠ c0) :
    (∀ db2 : Db, processLine fc (some c0) db2 l = .error "invalid code")
      ∧ ∃ e, writeCommand fc db lines = (db, some e) :=
  ⟨fun db2 => processLine_mismatch fc c0 db2 l t d c vs htok hne,
    writeRun_mismatch fc c0 db lines l t d c vs hs hl htok hne⟩

theorem c3_schema_mismatch_witness :
    (∀ db2 : Db, processLine fcUnit (some [117]) db2 "a 1970-01-01T00:00:01 I 5"
      = .error "invalid code")
    ∧ ∃ e, writeCommand fcUnit [(sentinelKey, [117])] ["a 1970-01-01T00:00:01 I 5"]
      = ([(sentinelKey, [117])], some e) :=
  c3_schema_mismatch fcUnit [117] [(sentinelKey, [117])] ["a 1970-01-01T00:00:01 I 5"]
    "a 1970-01-01T00:00:01 I 5" "a" "1970-01-01T00:00:01" "I" ["5"]
    (by decide) (by decide) (by decide) (by decide)

/-- C4: an append whose composite key — series name bytes followed by
the 8-byte big-endian timestamp — is not strictly greater than the
store's current maximum key is rejected with the out-of-order error; a
same-series timestamp at most the previous one always produces such a
key; and a failing run leaves the persisted store exactly as before. -/
theorem c4_out_of_order :
    (∀ (db : Db) (k v m : Bytes), lastKey db = some m → bytesLt m k = false →
      dbAppend db k v = .error "inserted value not ordered")
    ∧ (∀ (nm : String) (t1 t2 : Nat), t1 < 2 ^ 64 → t2 < 2 ^ 64 → t2 ≤ t1 →
      bytesLt (Key.bytesEncode nm t1) (Key.bytesEncode nm t2) = false)
    ∧ (∀ (fc : FloatCodec) (db : Db) (lines : List String) (e : String),
      writeRun fc db lines = .error e → writeCommand fc db lines = (db, some e)) :=
  ⟨dbAppend_not_gt, key_same_series_not_lt, writeCommand_of_error⟩

theorem c4_out_of_order_witness :
    dbAppend [(sentinelKey, [117]), (Key.bytesEncode "a" 5, [0, 0, 0, 1])]
        (Key.bytesEncode "a" 5) [0, 0, 0, 2] = .error "inserted value not ordered"
    ∧ bytesLt (Key.bytesEncode "a" 5) (Key.bytesEncode "a" 5) = false
    ∧ writeCommand fcUnit [] ["a 1970-01-01T00:00:01 u 1", "a 1970-01-01T00:00:01 u 2"]
      = ([], some "inserted value not ordered") :=
  ⟨c4_out_of_order.1 _ (Key.bytesEncode "a" 5) [0, 0, 0, 2] (Key.bytesEncode "a" 5)
      (by decide) (by decide),
    c4_out_of_order.2.1 "a" 5 5 (by decide) (by decide) (by decide),
    c4_out_of_order.2.2 fcUnit [] _ _ (by decide)⟩

/-- C5 counterexample: with the empty-string literal filter — a literal
filter in the source's sense, since it equals its own escape — the
bounded range scan starts at the sentinel's key, so the sentinel is
decoded and printed as a (partial) data row even though the store holds
no data point whose series name equals the filter; the expected output
for a store with no matching data points is empty. -/
theorem c5_filter_counterexample :
    isLiteralPat "" = true
    ∧ readRun fcUnit (mkDb (utf8Bytes "uuuu") []) (some "")
      = (" 1970-01-01T00:00:00 1970632053 ", some "failed to fill whole buffer")
    ∧ concatRows ((([] : List RecData).filter (fun r => r.name == "")).map
        (recRow fcUnit [.Unsigned, .Unsigned, .Unsigned, .Unsigned])) = "" :=
  ⟨by decide, by decide, rfl⟩

/-- C5 (amended): a nonempty literal filter emits exactly the data
points whose series name equals the filter string, and a glob filter
emits exactly the data points whose series name matches the pattern
under standard * / ? / bracket-class semantics — provided no stored
series name begins with a NUL character (the glob scan's lower bound
("", 1) would skip such keys). -/
theorem c5_filter_amended (fc : FloatCodec) (codes : List Code) (cb : Bytes)
    (rs : List RecData) (pat : String) (hcodes : codesOf cb = some codes) :
    (isLiteralPat pat = true → pat ≠ "" →
      (∀ r ∈ rs, r.ts < 2 ^ 64 ∧ (renderVals fc codes r.blob).2 = none) →
      readRun fc (mkDb cb rs) (some pat)
        = (concatRows ((rs.filter (fun r => r.name == pat)).map (recRow fc codes)), none))
    ∧ (∀ toks, isLiteralPat pat = false → patternNew pat = some toks →
      (∀ r ∈ rs, 0 < (utf8Bytes r.name).headD 0 ∧ r.ts < 2 ^ 64
        ∧ (renderVals fc codes r.blob).2 = none) →
      readRun fc (mkDb cb rs) (some pat)
        = (concatRows ((rs.filter (fun r => globMatch toks r.name.data)).map (recRow fc codes)),
           none)) :=
  ⟨fun hlit hne hwf => readRun_literal_model fc codes cb rs pat hcodes hlit hne hwf,
    fun toks hnl hp hwf => readRun_glob_model fc codes cb rs pat toks hcodes hnl hp hwf⟩

theorem c5_filter_witness :
    readRun fcUnit (mkDb [117] [⟨"air-1", 5, [0, 0, 0, 7]⟩]) (some "air-1")
      = (concatRows ((([⟨"air-1", 5, [0, 0, 0, 7]⟩] : List RecData).filter
          (fun r => r.name == "air-1")).map (recRow fcUnit [.Unsigned])), none)
    ∧ readRun fcUnit (mkDb [117] [⟨"air-1", 5, [0, 0, 0, 7]⟩]) (some "air-*")
      = (concatRows ((([⟨"air-1", 5, [0, 0, 0, 7]⟩] : List RecData).filter
          (fun r => globMatch [.lit 'a', .lit 'i', .lit 'r', .lit '-', .many] r.name.data)).map
            (recRow fcUnit [.Unsigned])), none) :=
  ⟨(c5_filter_amended fcUnit [.Unsigned] [117] [⟨"air-1", 5, [0, 0, 0, 7]⟩] "air-1"
      (by decide)).1 (by decide) (by decide)
      (by intro r hr
          rcases List.mem_cons.mp hr with rfl | h2
          · exact ⟨by decide, by decide⟩
          · simp at h2),
    (c5_filter_amended fcUnit [.Unsigned] [117] [⟨"air-1", 5, [0, 0, 0, 7]⟩] "air-*"
      (by decide)).2 [.lit 'a', .lit 'i', .lit 'r', .lit '-', .many] (by decide) (by decide)
      (by intro r hr
          rcases List.mem_cons.mp hr with rfl | h2
          · exact ⟨by decide, by decide, by decide⟩
          · simp at h2)⟩

/-- C6 counterexample: the claim says the sentinel record is never
decoded and never emitted as a data row, including under the
empty-string literal filter; under that filter the bounded range starts
at the sentinel's key, the empty pattern matches the empty name, and
the sentinel's key is decoded and its row partially printed before the
value decode runs out of bytes. -/
theorem c6_sentinel_counterexample :
    readRun fcUnit (mkDb [117] []) (some "")
      = (" 1970-01-01T00:00:00 ", some "failed to fill whole buffer")
    ∧ readRun fcUnit (mkDb [117] []) (some "") ≠ ("", none) :=
  ⟨by decide, by decide⟩

/-- C6 (amended): for an unfiltered read, a NONEMPTY literal filter, or
a glob filter, the sentinel record contributes nothing to the output —
the printed text is determined entirely by the data points (assuming
no series name begins with a NUL character); only the empty-string
literal filter reaches the sentinel. -/
theorem c6_sentinel_amended (fc : FloatCodec) (codes : List Code) (cb : Bytes)
    (rs : List RecData) (hcodes : codesOf cb = some codes)
    (hwf : ∀ r ∈ rs, 0 < (utf8Bytes r.name).headD 0 ∧ r.ts < 2 ^ 64
      ∧ (renderVals fc codes r.blob).2 = none) :
    readRun fc (mkDb cb rs) none = (concatRows (rs.map (recRow fc codes)), none)
    ∧ (∀ pat, pat ≠ "" → isLiteralPat pat = true →
        readRun fc (mkDb cb rs) (some pat)
          = (concatRows ((rs.filter (fun r => r.name == pat)).map (recRow fc codes)), none))
    ∧ (∀ pat toks, isLiteralPat pat = false → patternNew pat = some toks →
        readRun fc (mkDb cb rs) (some pat)
          = (concatRows ((rs.filter (fun r => globMatch toks r.name.data)).map
              (recRow fc codes)), none)) :=
  ⟨readRun_none_model fc codes cb rs hcodes hwf,
    fun pat hne hlit => readRun_literal_model fc codes cb rs pat hcodes hlit hne
      (fun r hr => ⟨(hwf r hr).2.1, (hwf r hr).2.2⟩),
    fun pat toks hnl hp => readRun_glob_model fc codes cb rs pat toks hcodes hnl hp hwf⟩

theorem c6_sentinel_witness :
    readRun fcUnit (mkDb [117] [⟨"air-1", 5, [0, 0, 0, 7]⟩]) none
      = (concatRows (([⟨"air-1", 5, [0, 0, 0, 7]⟩] : List RecData).map
          (recRow fcUnit [.Unsigned])), none) :=
  (c6_sentinel_amended fcUnit [.Unsigned] [117] [⟨"air-1", 5, [0, 0, 0, 7]⟩] (by decide)
    (by intro r hr
        rcases List.mem_cons.mp hr with rfl | h2
        · exact ⟨by decide, by decide, by decide⟩
        · simp at h2)).1

/-- C8: infos reports the entry count as the number of stored pairs
minus one (Nat subtraction, hence saturating at zero on an empty
store); on a fresh never-written store it reports count 0 and no schema
line; and after a successful write of the given lines from an empty
store it reports the established schema string and one entry per line. -/
theorem c8_infos (fc : FloatCodec) (cb : Bytes) (lds : List LineData) (lines : List String)
    (ld0 : LineData) (lds2 : List LineData) :
    (∀ db : Db, dbGet db sentinelKey = none →
      infosRun db = .ok ["number of entries: " ++ toString (db.length - 1)])
    ∧ infosRun [] = .ok ["number of entries: 0"]
    ∧ (lds = ld0 :: lds2 →
      List.Forall₂ (fun l ld => splitWs l = ldTokens ld) lines lds →
      (∀ ld ∈ lds, WFLine fc cb ld) →
      List.Chain' (fun a b => bytesLt a b = true) (lds.map ldKey) →
      writeCommand fc [] lines = (dbOfWrite fc cb lds, none)
        ∧ infosRun (dbOfWrite fc cb lds)
          = .ok ["values code: " ++ ld0.code,
              "number of entries: " ++ toString lds.length]) := by
  refine ⟨fun db h => by unfold infosRun; rw [h], rfl, fun heq htok hwf hchain => ?_⟩
  refine ⟨(write_read_roundtrip fc cb lds lines htok hwf hchain).1, ?_⟩
  subst heq
  have hwl : WFLine fc cb ld0 := hwf ld0 (by simp)
  have hget : dbGet (dbOfWrite fc cb (ld0 :: lds2)) sentinelKey = some cb := by
    unfold dbOfWrite dbGet
    rw [List.find?_cons_of_pos _ (by simp)]
    rfl
  unfold infosRun
  rw [hget]
  rw [show cb = utf8Bytes ld0.code from hwl.code_eq.symm]
  dsimp only []
  rw [utf8Decode_utf8Bytes]
  dsimp only []
  have hlen : (dbOfWrite fc (utf8Bytes ld0.code) (ld0 :: lds2)).length - 1
      = (ld0 :: lds2).length := by
    unfold dbOfWrite
    simp
  rw [hlen]

theorem c8_infos_witness :
    infosRun [(Key.bytesEncode "a" 5, [1])] = .ok ["number of entries: 0"]
    ∧ infosRun [] = .ok ["number of entries: 0"]
    ∧ (writeCommand fcUnit [] ["air-1 1970-01-01T00:00:01 u 7"]
        = (dbOfWrite fcUnit [117] [⟨"air-1", "1970-01-01T00:00:01", "u", ["7"]⟩], none)
      ∧ infosRun (dbOfWrite fcUnit [117] [⟨"air-1", "1970-01-01T00:00:01", "u", ["7"]⟩])
        = .ok ["values code: u", "number of entries: 1"]) := by
  have h := c8_infos fcUnit [117] [⟨"air-1", "1970-01-01T00:00:01", "u", ["7"]⟩]
    ["air-1 1970-01-01T00:00:01 u 7"] ⟨"air-1", "1970-01-01T00:00:01", "u", ["7"]⟩ []
  refine ⟨h.1 [(Key.bytesEncode "a" 5, [1])] (by decide), h.2.1, ?_⟩
  exact h.2.2 rfl (.cons (by decide) .nil)
    (by intro ld hld
        rcases List.mem_cons.mp hld with rfl | h2
        · exact ⟨by decide, by decide, by decide, by decide, by decide, by decide, by decide,
            by decide⟩
        · simp at h2)
    (by simp)

/-- C1 counterexample: two individually well-formed lines for two
distinct series — so the per-series timestamps are trivially strictly
increasing — whose composite keys arrive in decreasing order: the
append-only insertion rejects the second line, the whole write aborts,
and the subsequent unfiltered read emits no rows instead of one row per
input line. -/
theorem c1_roundtrip_counterexample :
    WFLine fcUnit [117] ⟨"b", "1970-01-01T00:00:01", "u", ["1"]⟩
    ∧ WFLine fcUnit [117] ⟨"a", "1970-01-01T00:00:02", "u", ["2"]⟩
    ∧ writeCommand fcUnit [] ["b 1970-01-01T00:00:01 u 1", "a 1970-01-01T00:00:02 u 2"]
      = ([], some "inserted value not ordered")
    ∧ readRun fcUnit [] none = ("", none) :=
  ⟨⟨by decide, by decide, by decide, by decide, by decide, by decide, by decide, by decide⟩,
    ⟨by decide, by decide, by decide, by decide, by decide, by decide, by decide, by decide⟩,
    by decide, rfl⟩

/-- C1 (amended): for every sequence of well-formed input lines — lines
that tokenize into name, canonical in-range post-epoch timestamp,
schema-matching code string and parseable value tokens, with series
names not beginning with a NUL character — whose composite keys
(series name bytes followed by the 8-byte big-endian timestamp) are
strictly increasing across the whole sequence, running write on an
empty store succeeds and a subsequent read with no filter emits exactly
one output line per input line, in insertion order, with the same
series name and timestamp text and each numeric field equal to the
canonical rendering of its input token (exact for integers, the
standard renderer applied to the parsed bytes for floats). -/
theorem c1_roundtrip_amended (fc : FloatCodec) (cb : Bytes) (lds : List LineData)
    (lines : List String)
    (htok : List.Forall₂ (fun l ld => splitWs l = ldTokens ld) lines lds)
    (hwf : ∀ ld ∈ lds, WFLine fc cb ld)
    (hchain : List.Chain' (fun a b => bytesLt a b = true) (lds.map ldKey)) :
    writeCommand fc [] lines = (dbOfWrite fc cb lds, none)
      ∧ readRun fc (dbOfWrite fc cb lds) none = (concatRows (lds.map (ldRow fc)), none) :=
  write_read_roundtrip fc cb lds lines htok hwf hchain

theorem c1_roundtrip_witness :
    writeCommand fcUnit []
        ["air-1 2001-01-13T12:09:14.026490 u 7", "air-1 2001-01-13T12:09:15 u 8"]
      = (dbOfWrite fcUnit [117]
          [⟨"air-1", "2001-01-13T12:09:14.026490", "u", ["7"]⟩,
            ⟨"air-1", "2001-01-13T12:09:15", "u", ["8"]⟩], none)
    ∧ readRun fcUnit (dbOfWrite fcUnit [117]
          [⟨"air-1", "2001-01-13T12:09:14.026490", "u", ["7"]⟩,
            ⟨"air-1", "2001-01-13T12:09:15", "u", ["8"]⟩]) none
      = (concatRows ([⟨"air-1", "2001-01-13T12:09:14.026490", "u", ["7"]⟩,
            (⟨"air-1", "2001-01-13T12:09:15", "u", ["8"]⟩ : LineData)].map (ldRow fcUnit)),
         none) :=
  c1_roundtrip_amended fcUnit [117]
    [⟨"air-1", "2001-01-13T12:09:14.026490", "u", ["7"]⟩,
      ⟨"air-1", "2001-01-13T12:09:15", "u", ["8"]⟩]
    ["air-1 2001-01-13T12:09:14.026490 u 7", "air-1 2001-01-13T12:09:15 u 8"]
    (.cons (by decide) (.cons (by decide) .nil))
    (by intro ld hld
        rcases List.mem_cons.mp hld with rfl | h2
        · exact ⟨by decide, by decide, by decide, by decide, by decide, by decide, by decide,
            by decide⟩
        rcases List.mem_cons.mp h2 with rfl | h3
        · exact ⟨by decide, by decide, by decide, by decide, by decide, by decide, by decide,
            by decide⟩
        · simp at h3)
    (by simp only [List.map_cons, List.map_nil]
        exact List.chain'_cons.mpr ⟨by decide, by simp⟩)
